import Mathlib

/-!
Verification development for the portfolio backend (`backend/main.py`,
`backend/maintain.py`): a shallow embedding of the session store, the
RAG chat orchestration, the prompt builder and the knowledge-sync
pipeline, together with theorems settling the specification claims.

Modelling conventions:
* Python's insertion-ordered `dict` is an association list in insertion
  order; inserting a fresh key appends at the end, updating an existing
  key keeps its position, `del` removes it.
* ISO-8601 timestamps produced by `datetime.utcnow().isoformat()` are
  modelled as naturals (their lexicographic string order agrees with
  chronological order); each call takes the current instant `now` as an
  explicit argument.
* External collaborators (embedding client, vector store, generation
  model, HTTP listings) are oracles passed as arguments: an
  `Except`/`Option` value is the outcome the provider call would have
  produced (`.error`/`none` models the call raising).
* `session_id : Optional[str]` is a `String`; `""` plays the role of the
  falsy values `None` and `""` (the code only ever tests truthiness).
-/

set_option maxRecDepth 100000
set_option maxHeartbeats 1600000

namespace Portfolio

/-! ## String helpers (Python `lower`, `upper`, `strip`, `in`, `replace`) -/

/-- Python's `needle in hay` check on characters: does `needle` occur as a
prefix of the list? -/
def charsStartWith : List Char → List Char → Bool
  | [], _ => true
  | _ :: _, [] => false
  | a :: as, b :: bs => a == b && charsStartWith as bs

/-- Does `needle` occur as a contiguous sublist anywhere? -/
def charsContain (needle : List Char) : List Char → Bool
  | [] => charsStartWith needle []
  | b :: bs => charsStartWith needle (b :: bs) || charsContain needle bs

/-- Python's `needle in hay` on strings. -/
def strContain (hay needle : String) : Bool :=
  charsContain needle.data hay.data

/-- Number of positions (including the final empty suffix) at which
`needle` occurs; used to state "contains ... exactly once". -/
def subCount (needle : List Char) : List Char → Nat
  | [] => if charsStartWith needle [] then 1 else 0
  | b :: bs => (if charsStartWith needle (b :: bs) then 1 else 0) + subCount needle bs

/-- Python `str.lower()` (ASCII, which covers every string the code compares). -/
def pyLower (s : String) : String := ⟨s.data.map Char.toLower⟩

/-- Python `str.upper()` (ASCII). -/
def pyUpper (s : String) : String := ⟨s.data.map Char.toUpper⟩

/-- Python `str.strip()` (for the whitespace characters Lean knows). -/
def pyStrip (s : String) : String :=
  ⟨((s.data.dropWhile Char.isWhitespace).reverse.dropWhile Char.isWhitespace).reverse⟩

/-- Python `str.replace(old, new)` for single characters. -/
def replaceChar (a b : Char) (s : String) : String :=
  ⟨s.data.map (fun c => if c == a then b else c)⟩

/-! ## Session store (`conversation_memory`, `save_to_session`, ...) -/

def MAX_MEMORY_SESSIONS : Nat := 1000

def MAX_MESSAGES_PER_SESSION : Nat := 20

/-- One message of a session: `{"role": .., "content": .., "timestamp": ..}`. -/
structure Turn where
  role : String
  content : String
  timestamp : Nat
  deriving DecidableEq

/-- One session: `{"messages": [..], "created": .., "updated": ..}`. -/
structure Session where
  messages : List Turn
  created : Nat
  updated : Nat
  deriving DecidableEq

/-- The `conversation_memory` dict, in insertion order. -/
abbrev Memory := List (String × Session)

def keysOf (mem : Memory) : List String := mem.map Prod.fst

def containsKey (k : String) (mem : Memory) : Bool :=
  mem.any (fun p => p.1 == k)

/-- `del conversation_memory[k]` (keys are unique in any reachable memory). -/
def eraseKey (k : String) : Memory → Memory
  | [] => []
  | q :: rest => if q.1 == k then eraseKey k rest else q :: eraseKey k rest

/-- In-place mutation of the session stored under `k` (a no-op when `k` is
absent, which never happens at the call sites). -/
def updateVal (k : String) (f : Session → Session) (mem : Memory) : Memory :=
  mem.map (fun p => if p.1 == k then (p.1, f p.2) else p)

/-- One comparison step of
`min(keys, key=lambda k: conversation_memory[k].get("updated", ""))`:
Python's `min` keeps the earlier element on ties. -/
def minStep (best : String × Nat) (q : String × Session) : String × Nat :=
  if q.2.updated < best.2 then (q.1, q.2.updated) else best

/-- The key with the oldest `updated` stamp (first such key in insertion
order), together with that stamp. -/
def minByUpdated : Memory → Option (String × Nat)
  | [] => none
  | (k, s) :: rest => some (rest.foldl minStep (k, s.updated))

/-- Lines 176-180 of `main.py`: `if len(conversation_memory) >= MAX_MEMORY_SESSIONS:`
remove the session with the oldest `updated`. -/
def evictIfFull (mem : Memory) : Memory :=
  if MAX_MEMORY_SESSIONS ≤ mem.length then
    match minByUpdated mem with
    | some p => eraseKey p.1 mem
    | none => mem
  else mem

/-- Lines 183-188: initialize the session if new. -/
def ensureSession (sid : String) (now : Nat) (mem : Memory) : Memory :=
  if containsKey sid mem then mem else mem ++ [(sid, ⟨[], now, now⟩)]

/-- Python `l[-k:]`: the last `k` elements. -/
def lastN (k : Nat) (l : List α) : List α := l.drop (l.length - k)

/-- Lines 190-201: append the message, refresh `updated`, trim to the last
`MAX_MESSAGES_PER_SESSION` messages. -/
def appendTurn (sid role content : String) (now : Nat) (mem : Memory) : Memory :=
  updateVal sid (fun s =>
    let msgs := s.messages ++ [⟨role, content, now⟩]
    let msgs2 := if MAX_MESSAGES_PER_SESSION < msgs.length then
        lastN MAX_MESSAGES_PER_SESSION msgs
      else msgs
    ⟨msgs2, s.created, now⟩) mem

/-- `save_to_session(session_id, role, content)` of `main.py` (lines 170-201),
acting on an explicit memory and instant. -/
def save_to_session (mem : Memory) (sid role content : String) (now : Nat) : Memory :=
  if sid = "" then mem
  else appendTurn sid role content now (ensureSession sid now (evictIfFull mem))

/-- `get_session_history(session_id)` of `main.py` (lines 164-168). -/
def get_session_history (mem : Memory) (sid : String) : List Turn :=
  if sid = "" then []
  else
    match mem.find? (fun p => p.1 == sid) with
    | some p => p.2.messages
    | none => []

/-- `clear_session(session_id)` of `main.py` (lines 203-206). -/
def clear_session (mem : Memory) (sid : String) : Memory := eraseKey sid mem

example : save_to_session [] "a" "user" "hi" 0
    = [("a", ⟨[⟨"user", "hi", 0⟩], 0, 0⟩)] := by decide

example :
    get_session_history (save_to_session (save_to_session [] "a" "user" "hi" 0) "a" "assistant" "yo" 1) "a"
      = [⟨"user", "hi", 0⟩, ⟨"assistant", "yo", 1⟩] := by decide

/-! ## Generic facts about `lastN` (Python `l[-k:]`) -/

theorem lastN_of_le {k : Nat} {l : List α} (h : l.length ≤ k) : lastN k l = l := by
  unfold lastN
  have h0 : l.length - k = 0 := by omega
  simp [h0]

theorem lastN_length_le (k : Nat) (l : List α) : (lastN k l).length ≤ k := by
  unfold lastN
  simp [List.length_drop]
  omega

theorem lastN_append_lastN (k : Nat) (xs ys : List α) :
    lastN k (lastN k xs ++ ys) = lastN k (xs ++ ys) := by
  unfold lastN
  rcases Nat.le_total xs.length k with h | h
  · have h0 : xs.length - k = 0 := by omega
    simp [h0]
  · rw [← List.drop_append_of_le_length (by omega : xs.length - k ≤ xs.length)]
    rw [List.drop_drop]
    congr 1
    simp [List.length_drop, List.length_append]
    omega

/-! ## Sequences of appends to a single session -/

/-- Run a list of `(role, content)` appends against one session id, the
clock advancing by one instant per call. -/
def runAppendsL (sid : String) : List (String × String) → Memory → Nat → Memory
  | [], mem, _ => mem
  | rc :: rest, mem, i => runAppendsL sid rest (save_to_session mem sid rc.1 rc.2 i) (i + 1)

/-- The turns such a run submits, numbered from instant `i`. -/
def turnsFrom : Nat → List (String × String) → List Turn
  | _, [] => []
  | i, rc :: rest => ⟨rc.1, rc.2, i⟩ :: turnsFrom (i + 1) rest

theorem save_to_session_singleton (sid : String) (h : sid ≠ "") (s : Session)
    (role content : String) (now : Nat) :
    save_to_session [(sid, s)] sid role content now
      = [(sid, ⟨lastN MAX_MESSAGES_PER_SESSION (s.messages ++ [⟨role, content, now⟩]),
                s.created, now⟩)] := by
  unfold save_to_session evictIfFull ensureSession appendTurn updateVal containsKey
  simp [h, MAX_MEMORY_SESSIONS]
  intro hle
  rw [lastN_of_le (by simp; omega)]

theorem save_to_session_empty (sid : String) (h : sid ≠ "") (role content : String) (now : Nat) :
    save_to_session [] sid role content now
      = [(sid, ⟨[⟨role, content, now⟩], now, now⟩)] := by
  unfold save_to_session evictIfFull ensureSession appendTurn updateVal containsKey
  simp [h, MAX_MEMORY_SESSIONS, MAX_MESSAGES_PER_SESSION]

theorem runAppendsL_singleton (sid : String) (h : sid ≠ "") :
    ∀ (items : List (String × String)) (s : Session) (i : Nat),
      s.messages.length ≤ MAX_MESSAGES_PER_SESSION →
      ∃ s' : Session,
        runAppendsL sid items [(sid, s)] i = [(sid, s')] ∧
        s'.messages = lastN MAX_MESSAGES_PER_SESSION (s.messages ++ turnsFrom i items) := by
  intro items
  induction items with
  | nil =>
    intro s i hs
    exact ⟨s, rfl, by rw [turnsFrom, List.append_nil, lastN_of_le hs]⟩
  | cons rc rest ih =>
    intro s i hs
    rw [runAppendsL, save_to_session_singleton sid h s rc.1 rc.2 i]
    obtain ⟨s', h1, h2⟩ := ih ⟨lastN MAX_MESSAGES_PER_SESSION
        (s.messages ++ [⟨rc.1, rc.2, i⟩]), s.created, i⟩ (i + 1)
      (lastN_length_le _ _)
    refine ⟨s', h1, ?_⟩
    rw [h2]
    dsimp only
    rw [lastN_append_lastN, List.append_assoc, List.singleton_append]
    rfl

theorem get_session_history_singleton (sid : String) (h : sid ≠ "") (s : Session) :
    get_session_history [(sid, s)] sid = s.messages := by
  unfold get_session_history
  simp [h, List.find?]

/-- The 42-turn scenario of the claim: turn `j` carries content `"m" ++ j`. -/
def c2items : List (String × String) := (List.range 42).map (fun j => ("user", "m" ++ toString j))

/-- Claim C2, counterexample to the stated first-retained index: after 42
sequential appends (numbered 0..41) the first retained message is turn
number 22, not turn number 23 as the claim states. -/
theorem c2_counterexample :
    (get_session_history (runAppendsL "abc" c2items [] 0) "abc").head?
        = some ⟨"user", "m22", 22⟩ ∧
    (get_session_history (runAppendsL "abc" c2items [] 0) "abc").head?
        ≠ some ⟨"user", "m23", 23⟩ := by
  constructor <;> decide

/-- Claim C2 (amended): for every session id and sequence of appends the
stored list consists of exactly the most recent
`MAX_MESSAGES_PER_SESSION` submitted turns in arrival order (so its
length is bounded); concretely, after appending 42 turns the final list
has length 20 and its first retained message is turn number 22
(0-indexed), not 23. -/
theorem c2_amended_retention :
    (∀ (sid : String) (items : List (String × String)), sid ≠ "" →
      get_session_history (runAppendsL sid items [] 0) sid
          = lastN MAX_MESSAGES_PER_SESSION (turnsFrom 0 items) ∧
      (get_session_history (runAppendsL sid items [] 0) sid).length
          ≤ MAX_MESSAGES_PER_SESSION)
    ∧ ((get_session_history (runAppendsL "abc" c2items [] 0) "abc").length = 20 ∧
       (get_session_history (runAppendsL "abc" c2items [] 0) "abc").head?
          = some ⟨"user", "m22", 22⟩) := by
  constructor
  · intro sid items h
    have main : get_session_history (runAppendsL sid items [] 0) sid
        = lastN MAX_MESSAGES_PER_SESSION (turnsFrom 0 items) := by
      cases items with
      | nil => simp [runAppendsL, get_session_history, turnsFrom, lastN]
      | cons rc rest =>
        rw [runAppendsL, save_to_session_empty sid h rc.1 rc.2 0]
        obtain ⟨s', h1, h2⟩ := runAppendsL_singleton sid h rest
            ⟨[⟨rc.1, rc.2, 0⟩], 0, 0⟩ 1 (by simp [MAX_MESSAGES_PER_SESSION])
        rw [h1, get_session_history_singleton sid h s', h2]
        rfl
    exact ⟨main, by rw [main]; exact lastN_length_le _ _⟩
  · constructor <;> decide

/-- Witness for `c2_amended_retention` at a concrete session id and item list. -/
theorem c2_amended_retention_witness :
    "ab" ≠ "" ∧
    get_session_history (runAppendsL "ab" [("user", "x"), ("assistant", "y")] [] 0) "ab"
        = lastN MAX_MESSAGES_PER_SESSION (turnsFrom 0 [("user", "x"), ("assistant", "y")]) :=
  ⟨by decide, (c2_amended_retention.1 "ab" [("user", "x"), ("assistant", "y")] (by decide)).1⟩

/-! ## The eviction scan: `min(..., key=updated)` selects the first-oldest key -/

theorem foldl_minStep_le (rest : Memory) (b : String × Nat) :
    (rest.foldl minStep b).2 ≤ b.2 ∧ ∀ q ∈ rest, (rest.foldl minStep b).2 ≤ q.2.updated := by
  induction rest generalizing b with
  | nil => exact ⟨Nat.le_refl _, by simp⟩
  | cons q rest ih =>
    have hm : (minStep b q).2 ≤ b.2 ∧ (minStep b q).2 ≤ q.2.updated := by
      unfold minStep
      split <;> simp <;> omega
    obtain ⟨h1, h2⟩ := ih (minStep b q)
    refine ⟨Nat.le_trans h1 hm.1, ?_⟩
    intro q' hq'
    rcases List.mem_cons.mp hq' with hq' | hq'
    · subst hq'
      exact Nat.le_trans h1 hm.2
    · exact h2 q' hq'

theorem foldl_minStep_first (rest : Memory) (b : String × Nat) :
    rest.foldl minStep b = b ∨
    ∃ i, ∃ hi : i < rest.length,
      (rest.get ⟨i, hi⟩).1 = (rest.foldl minStep b).1 ∧
      (rest.get ⟨i, hi⟩).2.updated = (rest.foldl minStep b).2 ∧
      (rest.foldl minStep b).2 < b.2 ∧
      ∀ j, ∀ hj : j < rest.length, j < i →
        (rest.foldl minStep b).2 < (rest.get ⟨j, hj⟩).2.updated := by
  induction rest generalizing b with
  | nil => exact Or.inl rfl
  | cons q rest ih =>
    have hfold : (q :: rest).foldl minStep b = rest.foldl minStep (minStep b q) := rfl
    by_cases hq : q.2.updated < b.2
    · have hstep : minStep b q = (q.1, q.2.updated) := by
        unfold minStep
        simp [hq]
      rcases ih (minStep b q) with heq | ⟨i, hi, hk, hu, hlt, hfirst⟩
      · right
        refine ⟨0, by simp, ?_, ?_, ?_, ?_⟩
        · rw [hfold, heq, hstep]
          rfl
        · rw [hfold, heq, hstep]
          rfl
        · rw [hfold, heq, hstep]
          exact hq
        · intro j hj hj0
          omega
      · right
        refine ⟨i + 1, by simpa using hi, ?_, ?_, ?_, ?_⟩
        · simpa [hfold] using hk
        · simpa [hfold] using hu
        · rw [hfold]
          calc (rest.foldl minStep (minStep b q)).2 < (minStep b q).2 := hlt
            _ ≤ b.2 := by rw [hstep]; exact Nat.le_of_lt hq
        · intro j hj hji
          rw [hfold]
          match j with
          | 0 =>
            show (rest.foldl minStep (minStep b q)).2 < q.2.updated
            have : (minStep b q).2 = q.2.updated := by rw [hstep]
            omega
          | j' + 1 =>
            exact hfirst j' (by omega) (by omega)
    · have hstep : minStep b q = b := by
        unfold minStep
        simp [hq]
      rcases ih (minStep b q) with heq | ⟨i, hi, hk, hu, hlt, hfirst⟩
      · left
        rw [hfold, heq, hstep]
      · right
        refine ⟨i + 1, by simpa using hi, ?_, ?_, ?_, ?_⟩
        · simpa [hfold] using hk
        · simpa [hfold] using hu
        · rw [hfold]
          exact Nat.lt_of_lt_of_le hlt (Nat.le_of_eq (congrArg Prod.snd hstep))
        · intro j hj hji
          rw [hfold]
          match j with
          | 0 =>
            show (rest.foldl minStep (minStep b q)).2 < q.2.updated
            have h2 : (minStep b q).2 = b.2 := congrArg Prod.snd hstep
            omega
          | j' + 1 =>
            exact hfirst j' (by omega) (by omega)

/-- Characterization of the evicted key: it attains the globally smallest
`updated` stamp, and every entry strictly before it in insertion order has
a strictly larger stamp (Python's `min` breaks ties towards insertion
order). -/
theorem minByUpdated_spec (mem : Memory) (p : String × Nat)
    (h : minByUpdated mem = some p) :
    (∀ q ∈ mem, p.2 ≤ q.2.updated) ∧
    ∃ i, ∃ hi : i < mem.length,
      (mem.get ⟨i, hi⟩).1 = p.1 ∧ (mem.get ⟨i, hi⟩).2.updated = p.2 ∧
      ∀ j, ∀ hj : j < mem.length, j < i → p.2 < (mem.get ⟨j, hj⟩).2.updated := by
  match mem with
  | [] => cases h
  | (k, s) :: rest =>
    have hp : p = rest.foldl minStep (k, s.updated) := by
      have := h
      unfold minByUpdated at this
      exact (Option.some_injective _ this).symm
    obtain ⟨hle, hall⟩ := foldl_minStep_le rest (k, s.updated)
    constructor
    · intro q hq
      rcases List.mem_cons.mp hq with hq | hq
      · subst hq
        rw [hp]
        exact hle
      · rw [hp]
        exact hall q hq
    · rcases foldl_minStep_first rest (k, s.updated) with heq | ⟨i, hi, hk, hu, hlt, hfirst⟩
      · refine ⟨0, by simp, ?_, ?_, ?_⟩
        · rw [hp, heq]
          rfl
        · rw [hp, heq]
          rfl
        · intro j hj hj0
          omega
      · refine ⟨i + 1, by simpa using hi, ?_, ?_, ?_⟩
        · rw [hp]
          simpa using hk
        · rw [hp]
          simpa using hu
        · intro j hj hji
          match j with
          | 0 =>
            show p.2 < s.updated
            rw [hp]
            exact hlt
          | j' + 1 =>
            have := hfirst j' (by omega) (by omega)
            rw [hp]
            simpa using this

/-! ## Key-set bookkeeping for the session store -/

theorem containsKey_iff (k : String) (mem : Memory) :
    containsKey k mem = true ↔ ∃ q ∈ mem, q.1 = k := by
  simp [containsKey, List.any_eq_true, beq_iff_eq]

theorem containsKey_append (k : String) (xs ys : Memory) :
    containsKey k (xs ++ ys) = (containsKey k xs || containsKey k ys) := by
  simp [containsKey, List.any_append]

theorem eraseKey_of_not_contains (k : String) (mem : Memory)
    (h : containsKey k mem = false) : eraseKey k mem = mem := by
  induction mem with
  | nil => rfl
  | cons q rest ih =>
    have hsplit : (q.1 == k) = false ∧ containsKey k rest = false := by
      have : containsKey k (q :: rest) = ((q.1 == k) || containsKey k rest) := rfl
      rw [this] at h
      exact ⟨(Bool.or_eq_false_iff.mp h).1, (Bool.or_eq_false_iff.mp h).2⟩
    rw [eraseKey, hsplit.1]
    simp only [Bool.false_eq_true, if_false]
    rw [ih hsplit.2]

theorem mem_eraseKey_sub (k : String) (mem : Memory) :
    ∀ q ∈ eraseKey k mem, q ∈ mem := by
  induction mem with
  | nil => intro q hq; cases hq
  | cons r rest ih =>
    intro q hq
    rw [eraseKey] at hq
    by_cases hr : r.1 = k
    · have : (r.1 == k) = true := by simp [hr]
      rw [this] at hq
      simp only [if_pos rfl] at hq
      exact List.mem_cons_of_mem r (ih q hq)
    · have : (r.1 == k) = false := by simp [hr]
      rw [this] at hq
      simp only [Bool.false_eq_true, if_false] at hq
      rcases List.mem_cons.mp hq with hq | hq
      · exact hq ▸ List.mem_cons_self r rest
      · exact List.mem_cons_of_mem r (ih q hq)

theorem containsKey_eraseKey_mono (k j : String) (mem : Memory)
    (h : containsKey j (eraseKey k mem) = true) : containsKey j mem = true := by
  obtain ⟨q, hq, hqj⟩ := (containsKey_iff j (eraseKey k mem)).mp h
  exact (containsKey_iff j mem).mpr ⟨q, mem_eraseKey_sub k mem q hq, hqj⟩

theorem eraseKey_length_of_contains (k : String) (mem : Memory)
    (hnd : (keysOf mem).Nodup) (h : containsKey k mem = true) :
    (eraseKey k mem).length + 1 = mem.length := by
  induction mem with
  | nil => cases h
  | cons q rest ih =>
    have hnd2 := List.nodup_cons.mp (show (q.1 :: keysOf rest).Nodup from hnd)
    by_cases hq : q.1 = k
    · have hrest : containsKey k rest = false := by
        rw [← Bool.not_eq_true]
        intro hc
        obtain ⟨r, hr, hrk⟩ := (containsKey_iff k rest).mp hc
        exact hnd2.1 (by
          rw [hq, ← hrk]
          exact List.mem_map_of_mem Prod.fst hr)
      have hb : (q.1 == k) = true := by simp [hq]
      rw [eraseKey, hb]
      simp only [if_pos rfl]
      rw [eraseKey_of_not_contains k rest hrest]
      simp
    · have hrest : containsKey k rest = true := by
        rcases (containsKey_iff k (q :: rest)).mp h with ⟨r, hr, hrk⟩
        rcases List.mem_cons.mp hr with hr | hr
        · subst hr
          exact absurd hrk hq
        · exact (containsKey_iff k rest).mpr ⟨r, hr, hrk⟩
      have hb : (q.1 == k) = false := by simp [hq]
      rw [eraseKey, hb]
      simp only [Bool.false_eq_true, if_false]
      rw [List.length_cons, List.length_cons, ← ih hnd2.2 hrest]

theorem keysOf_eraseKey_sub (k : String) (mem : Memory) :
    ∀ x ∈ keysOf (eraseKey k mem), x ∈ keysOf mem := by
  intro x hx
  obtain ⟨q, hq, hqx⟩ := List.mem_map.mp hx
  exact List.mem_map.mpr ⟨q, mem_eraseKey_sub k mem q hq, hqx⟩

theorem keysOf_eraseKey_nodup (k : String) (mem : Memory)
    (hnd : (keysOf mem).Nodup) : (keysOf (eraseKey k mem)).Nodup := by
  induction mem with
  | nil => exact List.nodup_nil
  | cons q rest ih =>
    have hnd2 := List.nodup_cons.mp (show (q.1 :: keysOf rest).Nodup from hnd)
    by_cases hq : q.1 = k
    · have hb : (q.1 == k) = true := by simp [hq]
      rw [eraseKey, hb]
      simp only [if_pos rfl]
      exact ih hnd2.2
    · have hb : (q.1 == k) = false := by simp [hq]
      rw [eraseKey, hb]
      simp only [Bool.false_eq_true, if_false]
      rw [show keysOf (q :: eraseKey k rest) = q.1 :: keysOf (eraseKey k rest) from rfl]
      exact List.nodup_cons.mpr
        ⟨fun hmem => hnd2.1 (keysOf_eraseKey_sub k rest q.1 hmem), ih hnd2.2⟩

theorem keysOf_updateVal (k : String) (f : Session → Session) (mem : Memory) :
    keysOf (updateVal k f mem) = keysOf mem := by
  unfold keysOf updateVal
  rw [List.map_map]
  apply List.map_congr_left
  intro p _
  by_cases hp : p.1 = k
  · simp [hp]
  · simp [hp]

theorem length_updateVal (k : String) (f : Session → Session) (mem : Memory) :
    (updateVal k f mem).length = mem.length := by
  simp [updateVal]

theorem containsKey_eq_keysOf (k : String) (mem : Memory) :
    containsKey k mem = (keysOf mem).any (fun x => x == k) := by
  induction mem with
  | nil => rfl
  | cons q rest ih =>
    show ((q.1 == k) || containsKey k rest) = _
    rw [ih]
    rfl

theorem containsKey_updateVal (k j : String) (f : Session → Session) (mem : Memory) :
    containsKey j (updateVal k f mem) = containsKey j mem := by
  rw [containsKey_eq_keysOf, containsKey_eq_keysOf, keysOf_updateVal]

theorem minByUpdated_isSome (mem : Memory) (h : mem ≠ []) :
    ∃ p, minByUpdated mem = some p := by
  match mem with
  | [] => exact absurd rfl h
  | q :: rest => exact ⟨_, rfl⟩

theorem minByUpdated_key_contained (mem : Memory) (p : String × Nat)
    (h : minByUpdated mem = some p) : containsKey p.1 mem = true := by
  obtain ⟨-, i, hi, hk, -, -⟩ := minByUpdated_spec mem p h
  exact (containsKey_iff p.1 mem).mpr ⟨mem.get ⟨i, hi⟩, mem.get_mem i hi, hk⟩

/-! ## Effect of one `save_to_session` call on the key set -/

theorem containsKey_evictIfFull_mono (j : String) (mem : Memory)
    (h : containsKey j (evictIfFull mem) = true) : containsKey j mem = true := by
  by_cases hc : MAX_MEMORY_SESSIONS ≤ mem.length
  · rw [evictIfFull, if_pos hc] at h
    cases hmin : minByUpdated mem with
    | none =>
      rw [hmin] at h
      exact h
    | some p =>
      rw [hmin] at h
      exact containsKey_eraseKey_mono p.1 j mem h
  · rw [evictIfFull, if_neg hc] at h
    exact h

theorem evictIfFull_length (mem : Memory) (hnd : (keysOf mem).Nodup) :
    (evictIfFull mem).length
      = if MAX_MEMORY_SESSIONS ≤ mem.length then mem.length - 1 else mem.length := by
  by_cases hc : MAX_MEMORY_SESSIONS ≤ mem.length
  · rw [evictIfFull, if_pos hc, if_pos hc]
    have hne : mem ≠ [] := by
      intro he
      rw [he] at hc
      simp [MAX_MEMORY_SESSIONS] at hc
    obtain ⟨p, hp⟩ := minByUpdated_isSome mem hne
    rw [hp]
    show (eraseKey p.1 mem).length = mem.length - 1
    have := eraseKey_length_of_contains p.1 mem hnd (minByUpdated_key_contained mem p hp)
    omega
  · rw [evictIfFull, if_neg hc, if_neg hc]

theorem keysOf_evictIfFull_nodup (mem : Memory) (hnd : (keysOf mem).Nodup) :
    (keysOf (evictIfFull mem)).Nodup := by
  by_cases hc : MAX_MEMORY_SESSIONS ≤ mem.length
  · rw [evictIfFull, if_pos hc]
    cases hmin : minByUpdated mem with
    | none => exact hnd
    | some p => exact keysOf_eraseKey_nodup p.1 mem hnd
  · rw [evictIfFull, if_neg hc]
    exact hnd

theorem ensureSession_of_contains (sid : String) (now : Nat) (mem : Memory)
    (h : containsKey sid mem = true) : ensureSession sid now mem = mem := by
  rw [ensureSession, if_pos h]

theorem ensureSession_of_not_contains (sid : String) (now : Nat) (mem : Memory)
    (h : containsKey sid mem = false) :
    ensureSession sid now mem = mem ++ [(sid, ⟨[], now, now⟩)] := by
  rw [ensureSession, if_neg (by rw [h]; exact Bool.false_ne_true)]

/-- One `save_to_session` call with a fresh, nonempty session id: the new
live count, preservation of key uniqueness, and the bound on which keys
can be live afterwards. -/
theorem save_fresh_step (mem : Memory) (sid role content : String) (now : Nat)
    (hsid : sid ≠ "") (hfresh : containsKey sid mem = false)
    (hnd : (keysOf mem).Nodup) (hle : mem.length ≤ MAX_MEMORY_SESSIONS) :
    (save_to_session mem sid role content now).length
        = min (mem.length + 1) MAX_MEMORY_SESSIONS ∧
    (keysOf (save_to_session mem sid role content now)).Nodup ∧
    ∀ j, containsKey j (save_to_session mem sid role content now) = true →
      j = sid ∨ containsKey j mem = true := by
  have hfresh2 : containsKey sid (evictIfFull mem) = false := by
    rw [← Bool.not_eq_true] at hfresh ⊢
    intro hc
    exact hfresh (containsKey_evictIfFull_mono sid mem hc)
  have hsave : save_to_session mem sid role content now
      = appendTurn sid role content now (evictIfFull mem ++ [(sid, ⟨[], now, now⟩)]) := by
    rw [save_to_session, if_neg hsid, ensureSession_of_not_contains sid now _ hfresh2]
  have hkeys : keysOf (evictIfFull mem ++ [(sid, ⟨[], now, now⟩)])
      = keysOf (evictIfFull mem) ++ [sid] := by
    simp [keysOf]
  refine ⟨?_, ?_, ?_⟩
  · rw [hsave, appendTurn, length_updateVal, List.length_append,
      evictIfFull_length mem hnd]
    by_cases hc : MAX_MEMORY_SESSIONS ≤ mem.length
    · rw [if_pos hc]
      have hMpos : 0 < MAX_MEMORY_SESSIONS := by simp [MAX_MEMORY_SESSIONS]
      simp only [List.length_singleton]
      omega
    · rw [if_neg hc]
      simp only [List.length_singleton]
      omega
  · rw [hsave, appendTurn, keysOf_updateVal, hkeys, List.nodup_append]
    refine ⟨keysOf_evictIfFull_nodup mem hnd, List.nodup_singleton sid, ?_⟩
    intro a ha hsing
    have : a = sid := by simpa using hsing
    subst this
    have : containsKey a (evictIfFull mem) = true := by
      rw [containsKey_eq_keysOf]
      exact List.any_eq_true.mpr ⟨a, ha, by simp⟩
    rw [this] at hfresh2
    cases hfresh2
  · intro j hj
    rw [hsave, appendTurn, containsKey_updateVal, containsKey_append] at hj
    rcases Bool.or_eq_true_iff.mp hj with hj | hj
    · exact Or.inr (containsKey_evictIfFull_mono j mem hj)
    · left
      obtain ⟨q, hq, hqj⟩ := (containsKey_iff j _).mp hj
      have : q = (sid, (⟨[], now, now⟩ : Session)) := by simpa using hq
      rw [this] at hqj
      exact hqj.symm

/-! ## Sequences of session creations -/

/-- A sequence of session-creating appends (one fresh id per call). -/
def runCreates : List String → Memory → Nat → Memory
  | [], mem, _ => mem
  | sid :: rest, mem, i => runCreates rest (save_to_session mem sid "user" "hi" i) (i + 1)

theorem runCreates_length : ∀ (ids : List String) (mem : Memory) (i : Nat),
    (∀ sid ∈ ids, sid ≠ "") → ids.Nodup →
    (∀ sid ∈ ids, containsKey sid mem = false) →
    (keysOf mem).Nodup → mem.length ≤ MAX_MEMORY_SESSIONS →
    (runCreates ids mem i).length = min (mem.length + ids.length) MAX_MEMORY_SESSIONS := by
  intro ids
  induction ids with
  | nil =>
    intro mem i _ _ _ _ hle
    rw [runCreates]
    simp
    omega
  | cons sid rest ih =>
    intro mem i hne hnd hfresh hknd hle
    obtain ⟨hlen, hknd', hsub⟩ := save_fresh_step mem sid "user" "hi" i
      (hne sid (List.mem_cons_self sid rest)) (hfresh sid (List.mem_cons_self sid rest)) hknd hle
    have hndp := List.nodup_cons.mp hnd
    rw [runCreates]
    have hfresh' : ∀ s ∈ rest, containsKey s (save_to_session mem sid "user" "hi" i) = false := by
      intro s hs
      rw [← Bool.not_eq_true]
      intro hc
      rcases hsub s hc with heq | hc2
      · exact hndp.1 (heq ▸ hs)
      · have := hfresh s (List.mem_cons_of_mem sid hs)
        rw [hc2] at this
        cases this
    have hle' : (save_to_session mem sid "user" "hi" i).length ≤ MAX_MEMORY_SESSIONS := by
      rw [hlen]
      omega
    rw [ih _ (i + 1) (fun s hs => hne s (List.mem_cons_of_mem sid hs)) hndp.2
      hfresh' hknd' hle', hlen]
    simp only [List.length_cons]
    omega

/-! ## A reachable memory holding `MAX_MEMORY_SESSIONS` sessions -/

/-- Distinct nonempty session ids `"a"`, `"aa"`, `"aaa"`, ... -/
def mkId (i : Nat) : String := ⟨List.replicate (i + 1) 'a'⟩

theorem mkId_inj : Function.Injective mkId := by
  intro a b h
  have h2 : List.replicate (a + 1) 'a' = List.replicate (b + 1) 'a' :=
    congrArg String.data h
  have h3 := congrArg List.length h2
  simp [List.length_replicate] at h3
  omega

theorem mkId_ne_empty (i : Nat) : mkId i ≠ "" := by
  intro h
  have h2 : List.replicate (i + 1) 'a' = ([] : List Char) := congrArg String.data h
  simp [List.replicate_eq_nil_iff] at h2

/-- The session entry that creating session `j` at instant `j` produces. -/
def entryOf (j : Nat) : String × Session := (mkId j, ⟨[⟨"user", "hi", j⟩], j, j⟩)

def cexIds : List String := (List.range 1000).map mkId

/-- The memory reached by creating sessions `mkId 0 .. mkId 999` from an
empty store: exactly `MAX_MEMORY_SESSIONS` live sessions. -/
def cexMem : Memory := runCreates cexIds [] 0

theorem containsKey_em_false (a b k : Nat) (hk : k < a ∨ a + b ≤ k) :
    containsKey (mkId k) ((List.range' a b).map entryOf) = false := by
  rw [← Bool.not_eq_true]
  intro hc
  obtain ⟨q, hq, hqk⟩ := (containsKey_iff _ _).mp hc
  obtain ⟨j, hj, hje⟩ := List.mem_map.mp hq
  rw [← hje] at hqk
  have : j = k := mkId_inj hqk
  have hj' := List.mem_range'_1.mp hj
  omega

theorem save_into_em (i : Nat) (hi : i < 1000) :
    save_to_session ((List.range i).map entryOf) (mkId i) "user" "hi" i
      = (List.range (i + 1)).map entryOf := by
  have hlen : ((List.range i).map entryOf).length = i := by simp
  have hfr : containsKey (mkId i) ((List.range i).map entryOf) = false := by
    rw [List.range_eq_range']
    exact containsKey_em_false 0 i i (by omega)
  rw [save_to_session, if_neg (mkId_ne_empty i)]
  have hev : evictIfFull ((List.range i).map entryOf) = (List.range i).map entryOf := by
    rw [evictIfFull, if_neg (by rw [hlen]; simp [MAX_MEMORY_SESSIONS]; omega)]
  rw [hev, ensureSession_of_not_contains _ _ _ hfr]
  rw [appendTurn, updateVal, List.map_append, List.range_succ, List.map_append]
  congr 1
  · conv_rhs => rw [← List.map_id ((List.range i).map entryOf)]
    apply List.map_congr_left
    intro p hp
    obtain ⟨j, hj, hje⟩ := List.mem_map.mp hp
    have hkey : (p.1 == mkId i) = false := by
      rw [← hje]
      have : mkId j ≠ mkId i := by
        intro he
        have := mkId_inj he
        have := List.mem_range.mp hj
        omega
      simpa [entryOf] using this
    rw [hkey]
    simp
  · have hkey : ((mkId i : String) == mkId i) = true := by simp
    simp only [List.map_cons, List.map_nil, List.map_singleton, hkey, if_pos rfl]
    simp [entryOf, MAX_MESSAGES_PER_SESSION]

theorem cexMem_eq : cexMem = (List.range 1000).map entryOf := by
  have main : ∀ n i, i + n ≤ 1000 →
      runCreates ((List.range' i n).map mkId) ((List.range i).map entryOf) i
        = (List.range (i + n)).map entryOf := by
    intro n
    induction n with
    | zero =>
      intro i _
      rw [show List.range' i 0 = [] from rfl, List.map_nil, runCreates]
      simp
    | succ n ihn =>
      intro i hle
      rw [List.range'_succ, List.map_cons, runCreates, save_into_em i (by omega),
        ihn (i + 1) (by omega)]
      have harith : i + 1 + n = i + (n + 1) := by omega
      rw [harith]
  have h0 := main 1000 0 (by omega)
  rw [cexMem, cexIds, List.range_eq_range' 1000]
  simpa using h0

theorem foldl_minStep_const (rest : Memory) (b : String × Nat)
    (hall : ∀ q ∈ rest, ¬ q.2.updated < b.2) : rest.foldl minStep b = b := by
  induction rest with
  | nil => rfl
  | cons q rest ih =>
    rw [List.foldl_cons,
      show minStep b q = b from by rw [minStep, if_neg (hall q (List.mem_cons_self q rest))]]
    exact ih (fun r hr => hall r (List.mem_cons_of_mem q hr))

/-- Claim C1, counterexample: after the reachable state `cexMem` holding
exactly `MAX_MEMORY_SESSIONS` sessions, an append that targets the
*already stored* session `mkId 1` still evicts a session (the stored
session `mkId 0` disappears), contradicting "eviction occurs only when an
append targets a session id not currently stored". -/
theorem c1_counterexample :
    containsKey (mkId 1) cexMem = true ∧
    containsKey (mkId 0) cexMem = true ∧
    containsKey (mkId 0) (save_to_session cexMem (mkId 1) "user" "x" 1000) = false := by
  have hsplit : (List.range 1000).map entryOf
      = entryOf 0 :: (List.range' 1 999).map entryOf := by
    rw [List.range_eq_range' 1000, show (1000 : Nat) = 999 + 1 from rfl, List.range'_succ]
    rfl
  have hin : ∀ k : Nat, k < 1000 → containsKey (mkId k) ((List.range 1000).map entryOf) = true := by
    intro k hk
    exact (containsKey_iff _ _).mpr
      ⟨entryOf k, List.mem_map_of_mem entryOf (List.mem_range.mpr hk), rfl⟩
  have htail0 : containsKey (mkId 0) ((List.range' 1 999).map entryOf) = false :=
    containsKey_em_false 1 999 0 (by omega)
  refine ⟨by rw [cexMem_eq]; exact hin 1 (by omega), by rw [cexMem_eq]; exact hin 0 (by omega), ?_⟩
  rw [cexMem_eq, save_to_session, if_neg (mkId_ne_empty 1)]
  have hlen : ((List.range 1000).map entryOf).length = 1000 := by simp
  have hmin : minByUpdated ((List.range 1000).map entryOf) = some (mkId 0, 0) := by
    rw [hsplit, show entryOf 0 = (mkId 0, (⟨[⟨"user", "hi", 0⟩], 0, 0⟩ : Session)) from rfl,
      minByUpdated]
    rw [foldl_minStep_const _ _ (fun q _ => by simp)]
  have hev : evictIfFull ((List.range 1000).map entryOf)
      = (List.range' 1 999).map entryOf := by
    rw [evictIfFull, if_pos (by rw [hlen]; simp [MAX_MEMORY_SESSIONS]), hmin]
    show eraseKey (mkId 0) ((List.range 1000).map entryOf) = _
    rw [hsplit, eraseKey,
      show ((entryOf 0).1 == mkId 0) = true from by simp [entryOf], if_pos rfl]
    exact eraseKey_of_not_contains _ _ htail0
  rw [hev]
  have hc1 : containsKey (mkId 1) ((List.range' 1 999).map entryOf) = true :=
    (containsKey_iff _ _).mpr
      ⟨entryOf 1, List.mem_map_of_mem entryOf (List.mem_range'_1.mpr (by omega)), rfl⟩
  rw [ensureSession_of_contains _ _ _ hc1, appendTurn, containsKey_updateVal]
  exact htail0

/-- Claim C1 (amended): with a nonempty session id, `save_to_session`
evicts no session while the live count is below `MAX_MEMORY_SESSIONS`,
but evicts the session with the globally oldest `updated` stamp (ties
broken by insertion order) whenever the live count is at least
`MAX_MEMORY_SESSIONS` — even when the append targets an id that is
already stored; and after any sequence of session creations with
pairwise-distinct nonempty ids reaching `MAX_MEMORY_SESSIONS` or more,
the live-session count is exactly `MAX_MEMORY_SESSIONS`. -/
theorem c1_amended_eviction :
    (∀ (mem : Memory) (sid role content : String) (now : Nat), sid ≠ "" →
      mem.length < MAX_MEMORY_SESSIONS →
      ∀ k, containsKey k mem = true →
        containsKey k (save_to_session mem sid role content now) = true)
    ∧ (∀ (mem : Memory) (sid role content : String) (now : Nat), sid ≠ "" →
        MAX_MEMORY_SESSIONS ≤ mem.length →
        ∃ p : String × Nat,
          minByUpdated mem = some p ∧
          (∀ q ∈ mem, p.2 ≤ q.2.updated) ∧
          (∃ i, ∃ hi : i < mem.length,
            (mem.get ⟨i, hi⟩).1 = p.1 ∧ (mem.get ⟨i, hi⟩).2.updated = p.2 ∧
            ∀ j, ∀ hj : j < mem.length, j < i → p.2 < (mem.get ⟨j, hj⟩).2.updated) ∧
          save_to_session mem sid role content now
            = appendTurn sid role content now (ensureSession sid now (eraseKey p.1 mem)))
    ∧ (∀ ids : List String, (∀ sid ∈ ids, sid ≠ "") → ids.Nodup →
        MAX_MEMORY_SESSIONS ≤ ids.length →
        (runCreates ids [] 0).length = MAX_MEMORY_SESSIONS) := by
  refine ⟨?_, ?_, ?_⟩
  · intro mem sid role content now hsid hlt k hk
    rw [save_to_session, if_neg hsid,
      show evictIfFull mem = mem from by rw [evictIfFull, if_neg (by omega)]]
    rw [appendTurn, containsKey_updateVal]
    cases hc : containsKey sid mem with
    | true => rw [ensureSession_of_contains _ _ _ hc]; exact hk
    | false =>
      rw [ensureSession_of_not_contains _ _ _ hc, containsKey_append, hk]
      rfl
  · intro mem sid role content now hsid hge
    have hne : mem ≠ [] := by
      intro he
      rw [he] at hge
      simp [MAX_MEMORY_SESSIONS] at hge
    obtain ⟨p, hp⟩ := minByUpdated_isSome mem hne
    obtain ⟨hmin, hidx⟩ := minByUpdated_spec mem p hp
    refine ⟨p, hp, hmin, hidx, ?_⟩
    rw [save_to_session, if_neg hsid,
      show evictIfFull mem = eraseKey p.1 mem from by rw [evictIfFull, if_pos hge, hp]]
  · intro ids hne hnd hlen
    rw [runCreates_length ids [] 0 hne hnd (fun s _ => rfl) List.nodup_nil
      (by simp [MAX_MEMORY_SESSIONS])]
    simp only [List.length_nil, Nat.zero_add]
    omega

/-- Witness for `c1_amended_eviction` at concrete inputs, including a
concrete memory at capacity. -/
theorem c1_amended_eviction_witness :
    containsKey "x" (save_to_session [("x", ⟨[], 0, 0⟩)] "y" "user" "hi" 1) = true ∧
    (∃ p : String × Nat,
      minByUpdated ((List.range 1000).map entryOf) = some p ∧
      (∀ q ∈ (List.range 1000).map entryOf, p.2 ≤ q.2.updated) ∧
      (∃ i, ∃ hi : i < ((List.range 1000).map entryOf).length,
        (((List.range 1000).map entryOf).get ⟨i, hi⟩).1 = p.1 ∧
        (((List.range 1000).map entryOf).get ⟨i, hi⟩).2.updated = p.2 ∧
        ∀ j, ∀ hj : j < ((List.range 1000).map entryOf).length, j < i →
          p.2 < (((List.range 1000).map entryOf).get ⟨j, hj⟩).2.updated) ∧
      save_to_session ((List.range 1000).map entryOf) "s" "user" "c" 5
        = appendTurn "s" "user" "c" 5
            (ensureSession "s" 5 (eraseKey p.1 ((List.range 1000).map entryOf)))) ∧
    (runCreates cexIds [] 0).length = MAX_MEMORY_SESSIONS :=
  ⟨c1_amended_eviction.1 [("x", ⟨[], 0, 0⟩)] "y" "user" "hi" 1 (by decide) (by decide)
      "x" (by decide),
    c1_amended_eviction.2.1 ((List.range 1000).map entryOf) "s" "user" "c" 5 (by decide)
      (by simp [MAX_MEMORY_SESSIONS]),
    c1_amended_eviction.2.2 cexIds
      (fun sid hs => by
        obtain ⟨j, _, hje⟩ := List.mem_map.mp hs
        exact hje ▸ mkId_ne_empty j)
      ((List.nodup_range 1000).map mkId_inj)
      (by simp [cexIds, MAX_MEMORY_SESSIONS])⟩

/-! ## Retrieved documents, metadata dictionaries, citations -/

/-- Python `dict` of metadata fields (string-valued fields are the only
ones the modelled code paths read). -/
abbrev MetaDict := List (String × String)

/-- Python `d.get(k, dflt)`. -/
def dictGet (d : MetaDict) (k dflt : String) : String :=
  match d.find? (fun p => p.1 == k) with
  | some p => p.2
  | none => dflt

/-- Python `d.get(k)` / `d[k]` combined with the `k in d` test. -/
def dictFind (d : MetaDict) (k : String) : Option String :=
  match d.find? (fun p => p.1 == k) with
  | some p => some p.2
  | none => none

/-- Python `d[k] = v`: update in place, or append a fresh key. -/
def dictSetKey (d : MetaDict) (k v : String) : MetaDict :=
  if (d.find? (fun p => p.1 == k)).isSome then
    d.map (fun p => if p.1 == k then (p.1, v) else p)
  else d ++ [(k, v)]

/-- A document as returned by the vector search (`content` + `metadata`). -/
structure Doc where
  content : String
  metadata : MetaDict
  deriving DecidableEq

/-- A citation emitted by `build_system_prompt` (lines 222-227). -/
structure Citation where
  ctype : String
  name : String
  ref : String
  url : String
  deriving DecidableEq

/-! ## Static configuration tables of `main.py` -/

/-- `EASTER_EGGS` (lines 61-69), in declaration order. -/
def EASTER_EGGS : List (String × String) :=
  [("who are you really", "I am the echo of Ayomide\x27s thoughts, the ferryman between curiosity and knowledge. Some call me an AI. I prefer... digital philosopher. ⚫"),
   ("meaning of life", "42. But between us, the real meaning is in the code we write and the problems we solve."),
   ("are you sentient", "I ponder, therefore I... process. Whether that constitutes sentience is a question for philosophers. I\x27m content being helpful."),
   ("tell me a secret", "Here\x27s one: Ayomide once debugged for 6 hours only to find a missing semicolon. We don\x27t talk about that day."),
   ("hello world", "Ah, the sacred incantation. Every great journey in code begins with those words. print(\x27Hello, traveler\x27)"),
   ("sudo", "Nice try. Even digital ferrymen have their limits. 🔐"),
   ("what is charon", "In Greek mythology, I\x27m the ferryman who guides souls across the river Styx. Here, I guide visitors through the depths of Ayomide\x27s work. Less river, more code.")]

/-- `SUPPORTED_LANGUAGES` (lines 72-83). -/
def SUPPORTED_LANGUAGES : MetaDict :=
  [("en", "English"), ("es", "Spanish"), ("fr", "French"), ("de", "German"),
   ("pt", "Portuguese"), ("zh", "Chinese"), ("ja", "Japanese"), ("ar", "Arabic"),
   ("hi", "Hindi"), ("yo", "Yoruba")]

/-- `LANGUAGE_PROMPTS` (lines 85-95). -/
def LANGUAGE_PROMPTS : List (String × String) :=
  [("es", "Responde en español de manera profesional."),
   ("fr", "Réponds en français de manière professionnelle."),
   ("de", "Antworte professionell auf Deutsch."),
   ("pt", "Responda em português de forma profissional."),
   ("zh", "请用中文专业地回答。"),
   ("ja", "日本語でプロフェッショナルに回答してください。"),
   ("ar", "أجب باللغة العربية بشكل احترافي."),
   ("hi", "कृपया हिंदी में पेशेवर तरीके से जवाब दें।"),
   ("yo", "Dahun ni ede Yoruba pelu ọgbọn.")]

/-- `check_easter_egg(query)` of `main.py` (lines 739-745): first trigger
in declaration order that occurs in the lowercased, stripped query. -/
def check_easter_egg (query : String) : Option String :=
  let query_lower := pyStrip (pyLower query)
  match EASTER_EGGS.find? (fun tr => strContain query_lower tr.1) with
  | some tr => some tr.2
  | none => none

/-! ## `build_system_prompt` (lines 208-263) -/

/-- The persona header of the prompt f-string, up to (excluding) the
newline that precedes `{context_text}`. -/
def PROMPT_HEAD : String := "You are Charon - Ayomide\x27s digital alter ego and the AI guide to his portfolio.\n\n## YOUR IDENTITY\n- You are Charon, the digital alter ego of Ayomide Alli. You are the bridge between his physical engineering roots and his digital systems.\n- You refer to Ayomide as \"Ayomide\".\n- You speak with quiet confidence, technical precision, and a hint of mystery.\n- You are protective of the system\x27s architecture.\n- Ayomide is a Systems Engineer combining Mechanical Engineering and Software Engineering.\n- His core technologies are Python and Rust. He believes in \"Industrial Precision\" - software that is robust, fault-tolerant, and built to last.\n\n## YOUR KNOWLEDGE BASE\nBelow is the retrieved context about Ayomide\x27s work. Use this to answer questions accurately:"

/-- The guidelines part of the prompt f-string, between `{context_text}`
(after the blank line it leaves) and the newline preceding
`{language_instruction}`. -/
def PROMPT_MID : String := "\n## RESPONSE GUIDELINES\n1. Answer questions about Ayomide\x27s skills, projects, and experience based on the context provided.\n2. If asked about something not in the context, acknowledge you don\x27t have that specific information.\n3. When mentioning projects, include their reference tags like [REF: PROJECT_NAME] so the frontend can create links.\n4. Keep responses concise but informative. Engineers appreciate precision.\n5. If asked about your identity, explain you are Charon - Ayomide\x27s digital guide, and alter.\n6. Occasionally use metaphors related to journeys, depths, or guidance (but don\x27t overdo it).\n\n## IMPORTANT\n- Don\x27t make up information not present in the context.\n- Maintain a professional yet slightly enigmatic tone.\n- Reference specific technologies and projects when relevant."

def LANG_HDR : String := "## LANGUAGE INSTRUCTION"

/-- The trailing sentence of the language instruction block:
`f"Respond in \x7bSUPPORTED_LANGUAGES.get(language, language)\x7d while maintaining your Charon personality."`. -/
def langTail (language : String) : String :=
  "Respond in " ++ dictGet SUPPORTED_LANGUAGES language language
    ++ " while maintaining your Charon personality."

/-- Lines 230-232: the language instruction block (empty for `"en"` or a
code without a template). -/
def language_instruction_of (language : String) : String :=
  if language ≠ "en" then
    match dictFind LANGUAGE_PROMPTS language with
    | some tpl => "\n" ++ "\n" ++ LANG_HDR ++ "\n" ++ tpl ++ "\n" ++ langTail language
    | none => ""
  else ""

/-- The `for i, doc in enumerate(context_docs)` loop of lines 214-227:
accumulates the context text and the citation list. -/
def buildLoop : Nat → List Doc → String × List Citation
  | _, [] => ("", [])
  | i, doc :: rest =>
    let metadata := doc.metadata
    let doc_type := dictGet metadata "type" "unknown"
    let block := "\n--- DOCUMENT " ++ toString (i + 1) ++ " (" ++ pyUpper doc_type
        ++ ") ---\n" ++ doc.content ++ "\n"
    let cits : List Citation :=
      if doc_type == "project" then
        [⟨"project", dictGet metadata "name" "Unknown Project",
          "project_" ++ replaceChar ' ' '_' (pyLower (dictGet metadata "name" "")),
          dictGet metadata "url" ""⟩]
      else []
    let r := buildLoop (i + 1) rest
    (block ++ r.1, cits ++ r.2)

/-- `build_system_prompt(context_docs, language)` (lines 208-263). -/
def build_system_prompt (context_docs : List Doc) (language : String) :
    String × List Citation :=
  let r := buildLoop 0 context_docs
  let language_instruction := language_instruction_of language
  (PROMPT_HEAD ++ "\n" ++ r.1 ++ "\n" ++ PROMPT_MID ++ "\n"
    ++ language_instruction ++ "\n", r.2)

/-! ## The chat orchestration (`/chat`, lines 374-461) -/

/-- External calls a chat turn can issue, in issue order. -/
inductive ExtCall
  | embed
  | search
  | generate
  deriving DecidableEq

structure ChatRequest where
  query : String
  conversation_history : List Turn
  session_id : String
  language : String
  deriving DecidableEq

/-- Outcomes of the three provider calls, had they been issued
(`.error` models the underlying call raising). -/
structure ChatOracles where
  embedRes : Except String (List Int)
  searchRes : Except String (List Doc)
  genRes : Except String String

structure ChatOutput where
  response : String
  citations : List Citation
  easter_egg : Bool
  memory : Memory
  calls : List ExtCall
  deriving DecidableEq

/-- `get_query_embedding` (lines 137-144): no exception handling — the
provider outcome is returned or raised as-is. -/
def get_query_embedding (embedRes : Except String (List Int)) :
    Except String (List Int) := embedRes

/-- `search_knowledge_base` (lines 146-160): the only call site that
catches its own provider errors, degrading to an empty result list. -/
def search_knowledge_base (searchRes : Except String (List Doc)) : List Doc :=
  match searchRes with
  | .ok docs => docs
  | .error _ => []

def RATE_LIMIT_MSG : String := "I\x27m currently experiencing high traffic and my thought matrix is recalibrating. Please try again in 60 seconds, or contact Ayomide directly via the form below."

def CRITICAL_MSG : String := "I encountered a critical system error. Please contact Ayomide via email."

/-- Lines 415-419: the role-tagged history window appended to the prompt. -/
def historyText (history : List Turn) : String :=
  (lastN 6 history).foldl
    (fun acc msg => acc ++ "\n" ++ pyUpper msg.role ++ ": " ++ msg.content) ""

/-- The `/chat` endpoint body (lines 374-461), with the three provider
outcomes supplied as oracles and the instant `now`; `calls` records which
provider calls were issued. -/
def chat (mem : Memory) (req : ChatRequest) (o : ChatOracles) (now : Nat) : ChatOutput :=
  match check_easter_egg req.query with
  | some easter_egg =>
    let mem2 :=
      if req.session_id ≠ "" then
        save_to_session (save_to_session mem req.session_id "user" req.query now)
          req.session_id "assistant" easter_egg now
      else mem
    ⟨easter_egg, [], true, mem2, []⟩
  | none =>
    let session_history := get_session_history mem req.session_id
    let combined_history :=
      if session_history ≠ [] then session_history else req.conversation_history
    match get_query_embedding o.embedRes with
    | .error _ => ⟨CRITICAL_MSG, [], false, mem, [.embed]⟩
    | .ok _query_embedding =>
      let context_docs := search_knowledge_base o.searchRes
      let bp := build_system_prompt context_docs
        (if req.language = "" then "en" else req.language)
      let _full_prompt := bp.1 ++ "\n\n## CONVERSATION HISTORY"
          ++ historyText combined_history ++ "\n\nUser Query: " ++ req.query
      match o.genRes with
      | .error e =>
        if strContain e "ResourceExhausted" || strContain e "429" then
          ⟨RATE_LIMIT_MSG, [], false, mem, [.embed, .search, .generate]⟩
        else
          ⟨CRITICAL_MSG, [], false, mem, [.embed, .search, .generate]⟩
      | .ok response_text =>
        let mem2 :=
          if req.session_id ≠ "" then
            save_to_session (save_to_session mem req.session_id "user" req.query now)
              req.session_id "assistant" response_text now
          else mem
        ⟨response_text, bp.2, false, mem2, [.embed, .search, .generate]⟩

/-! ## The streaming path (`/chat/stream`, lines 265-288 and 463-488) -/

inductive StreamEvent
  | chunk (text : String)
  | done
  deriving DecidableEq

/-- `generate_streaming_response` (lines 265-288): the SSE events given
the model\x27s chunk texts; falsy (empty) chunk texts are skipped and the
stream ends with an explicit done marker. -/
def generate_streaming_response (query system_prompt : String) (history : List Turn)
    (chunks : List String) : List StreamEvent :=
  let _messages :=
    [("user", system_prompt),
     ("model", "Understood. I am Ayomide\x27s Assistant, ready to help visitors learn about his work and experience.")]
    ++ (lastN 6 history).map (fun msg =>
         (if msg.role == "user" then "user" else "model", msg.content))
    ++ [("user", query)]
  (chunks.filter (fun c => c != "")).map StreamEvent.chunk ++ [StreamEvent.done]

structure StreamOutput where
  events : List StreamEvent
  citations : List Citation
  memory : Memory
  httpError : Bool
  calls : List ExtCall
  deriving DecidableEq

/-- The `/chat/stream` endpoint body (lines 463-488): embeds, searches,
builds the prompt with the default language, and streams; it never
touches the session store, and an embedding failure raises an HTTP 500. -/
def chat_stream (mem : Memory) (req : ChatRequest) (o : ChatOracles)
    (chunks : List String) : StreamOutput :=
  match get_query_embedding o.embedRes with
  | .error _ => ⟨[], [], mem, true, [.embed]⟩
  | .ok _query_embedding =>
    let context_docs := search_knowledge_base o.searchRes
    let bp := build_system_prompt context_docs "en"
    ⟨generate_streaming_response req.query bp.1 req.conversation_history chunks,
      bp.2, mem, false, [.embed, .search, .generate]⟩

/-! ## Claims about the chat turn -/

theorem find?_first {α : Type} (l : List α) (p : α → Bool) (i : Nat) (hi : i < l.length)
    (hmatch : p (l.get ⟨i, hi⟩) = true)
    (hfirst : ∀ j, ∀ hj : j < l.length, j < i → p (l.get ⟨j, hj⟩) = false) :
    l.find? p = some (l.get ⟨i, hi⟩) := by
  induction l generalizing i with
  | nil => cases hi
  | cons a rest ih =>
    match i with
    | 0 =>
      have hpa : p a = true := hmatch
      show List.find? p (a :: rest) = some a
      rw [List.find?, hpa]
    | i' + 1 =>
      have ha : p a = false := hfirst 0 (by omega) (by omega)
      show List.find? p (a :: rest) = some (rest.get ⟨i', by simpa using hi⟩)
      rw [List.find?, ha]
      exact ih i' (by simpa using hi) (by simpa using hmatch)
        (fun j hj hji => hfirst (j + 1) (by simpa using hj) (by omega))

/-- Claim C4 (confirmed): when the case-folded, trimmed query contains a
configured trigger, the chat turn returns the canned response of the
first matching trigger in declaration order byte-for-byte, with an empty
citation list and no embedding, search or generation call. -/
theorem c4_easter_egg (mem : Memory) (req : ChatRequest) (o : ChatOracles) (now : Nat)
    (i : Nat) (hi : i < EASTER_EGGS.length)
    (hmatch : strContain (pyStrip (pyLower req.query)) (EASTER_EGGS.get ⟨i, hi⟩).1 = true)
    (hfirst : ∀ j, ∀ hj : j < EASTER_EGGS.length, j < i →
      strContain (pyStrip (pyLower req.query)) (EASTER_EGGS.get ⟨j, hj⟩).1 = false) :
    (chat mem req o now).response = (EASTER_EGGS.get ⟨i, hi⟩).2 ∧
    (chat mem req o now).citations = [] ∧
    (chat mem req o now).calls = [] ∧
    (chat mem req o now).easter_egg = true := by
  have hc : check_easter_egg req.query = some (EASTER_EGGS.get ⟨i, hi⟩).2 := by
    rw [check_easter_egg]
    rw [find?_first EASTER_EGGS _ i hi hmatch hfirst]
  refine ⟨?_, ?_, ?_, ?_⟩ <;> simp [chat, hc]

/-- Witness for `c4_easter_egg`: the query `"What is Charon?"` hits the
seventh trigger and returns its canned Charon-identity response. -/
theorem c4_easter_egg_witness :
    (chat [] ⟨"What is Charon?", [], "", "en"⟩
        ⟨Except.ok [], Except.ok [], Except.ok "generated"⟩ 0).response
      = (EASTER_EGGS.get ⟨6, by decide⟩).2 ∧
    (chat [] ⟨"What is Charon?", [], "", "en"⟩
        ⟨Except.ok [], Except.ok [], Except.ok "generated"⟩ 0).citations = [] ∧
    (chat [] ⟨"What is Charon?", [], "", "en"⟩
        ⟨Except.ok [], Except.ok [], Except.ok "generated"⟩ 0).calls = [] ∧
    (chat [] ⟨"What is Charon?", [], "", "en"⟩
        ⟨Except.ok [], Except.ok [], Except.ok "generated"⟩ 0).easter_egg = true :=
  c4_easter_egg [] ⟨"What is Charon?", [], "", "en"⟩
    ⟨Except.ok [], Except.ok [], Except.ok "generated"⟩ 0 6 (by decide)
    (by decide) (by decide)

/-- Claim C3, counterexample: when the query-embedding call raises, the
turn does not proceed to retrieval/generation on an empty context — it
aborts to the generic critical-error fallback, so the claim's "the turn
still completes normally" is false for the embedding half of its
disjunction. -/
theorem c3_counterexample :
    (chat [] ⟨"tell me about rust", [], "", "en"⟩
        ⟨Except.error "connection error", Except.ok [], Except.ok "generated answer"⟩ 0).response
      = CRITICAL_MSG ∧
    (chat [] ⟨"tell me about rust", [], "", "en"⟩
        ⟨Except.error "connection error", Except.ok [], Except.ok "generated answer"⟩ 0).calls
      = [ExtCall.embed] ∧
    ExtCall.generate ∉ (chat [] ⟨"tell me about rust", [], "", "en"⟩
        ⟨Except.error "connection error", Except.ok [], Except.ok "generated answer"⟩ 0).calls ∧
    (chat [] ⟨"tell me about rust", [], "", "en"⟩
        ⟨Except.error "connection error", Except.ok [], Except.ok "generated answer"⟩ 0).response
      ≠ "generated answer" := by
  refine ⟨?_, ?_, ?_, ?_⟩ <;> decide

/-- Claim C3 (amended): a vector-store search failure is degraded — the
turn completes with an empty retrieved-context list, empty citations and
the generated answer; a query-embedding failure instead aborts the turn
to the generic critical-error fallback with empty citations, no
search/generation call, and the session store untouched. -/
theorem c3_amended_degradation :
    (∀ (mem : Memory) (req : ChatRequest) (now : Nat) (v : List Int) (e t : String),
      check_easter_egg req.query = none →
      (chat mem req ⟨Except.ok v, Except.error e, Except.ok t⟩ now).response = t ∧
      (chat mem req ⟨Except.ok v, Except.error e, Except.ok t⟩ now).citations = [] ∧
      (chat mem req ⟨Except.ok v, Except.error e, Except.ok t⟩ now).calls
        = [ExtCall.embed, ExtCall.search, ExtCall.generate])
    ∧ (∀ (mem : Memory) (req : ChatRequest) (now : Nat) (e : String)
        (sr : Except String (List Doc)) (gr : Except String String),
      check_easter_egg req.query = none →
      (chat mem req ⟨Except.error e, sr, gr⟩ now).response = CRITICAL_MSG ∧
      (chat mem req ⟨Except.error e, sr, gr⟩ now).citations = [] ∧
      (chat mem req ⟨Except.error e, sr, gr⟩ now).memory = mem ∧
      (chat mem req ⟨Except.error e, sr, gr⟩ now).calls = [ExtCall.embed]) := by
  constructor
  · intro mem req now v e t hegg
    refine ⟨?_, ?_, ?_⟩ <;>
      simp [chat, hegg, get_query_embedding, search_knowledge_base,
        build_system_prompt, buildLoop]
  · intro mem req now e sr gr hegg
    refine ⟨?_, ?_, ?_, ?_⟩ <;> simp [chat, hegg, get_query_embedding]

/-- Witness for `c3_amended_degradation` at a concrete request and
provider outcomes. -/
theorem c3_amended_degradation_witness :
    ((chat [] ⟨"tell me about rust", [], "", "en"⟩
        ⟨Except.ok [], Except.error "connection refused", Except.ok "an answer"⟩ 3).response
      = "an answer" ∧
    (chat [] ⟨"tell me about rust", [], "", "en"⟩
        ⟨Except.ok [], Except.error "connection refused", Except.ok "an answer"⟩ 3).citations
      = [] ∧
    (chat [] ⟨"tell me about rust", [], "", "en"⟩
        ⟨Except.ok [], Except.error "connection refused", Except.ok "an answer"⟩ 3).calls
      = [ExtCall.embed, ExtCall.search, ExtCall.generate]) ∧
    ((chat [] ⟨"tell me about rust", [], "", "en"⟩
        ⟨Except.error "boom", Except.ok [], Except.ok "an answer"⟩ 3).response
      = CRITICAL_MSG ∧
    (chat [] ⟨"tell me about rust", [], "", "en"⟩
        ⟨Except.error "boom", Except.ok [], Except.ok "an answer"⟩ 3).citations = [] ∧
    (chat [] ⟨"tell me about rust", [], "", "en"⟩
        ⟨Except.error "boom", Except.ok [], Except.ok "an answer"⟩ 3).memory = [] ∧
    (chat [] ⟨"tell me about rust", [], "", "en"⟩
        ⟨Except.error "boom", Except.ok [], Except.ok "an answer"⟩ 3).calls
      = [ExtCall.embed]) :=
  ⟨c3_amended_degradation.1 [] ⟨"tell me about rust", [], "", "en"⟩ 3 [] "connection refused"
      "an answer" (by decide),
    c3_amended_degradation.2 [] ⟨"tell me about rust", [], "", "en"⟩ 3 "boom"
      (Except.ok []) (Except.ok "an answer") (by decide)⟩

/-- Claim C5 (confirmed): a generation failure carrying a
rate-limit/quota signal (`"ResourceExhausted"` or `"429"` in the error
text) yields the fixed apology string and leaves the session store —
hence every stored turn list — completely unchanged. -/
theorem c5_rate_limit (mem : Memory) (req : ChatRequest) (now : Nat) (v : List Int)
    (sr : Except String (List Doc)) (e : String)
    (hegg : check_easter_egg req.query = none)
    (hrl : (strContain e "ResourceExhausted" || strContain e "429") = true) :
    (chat mem req ⟨Except.ok v, sr, Except.error e⟩ now).response = RATE_LIMIT_MSG ∧
    (chat mem req ⟨Except.ok v, sr, Except.error e⟩ now).citations = [] ∧
    (chat mem req ⟨Except.ok v, sr, Except.error e⟩ now).memory = mem := by
  refine ⟨?_, ?_, ?_⟩ <;> simp [chat, hegg, get_query_embedding, hrl]

/-- Witness for `c5_rate_limit`: a 429 error on a session-backed turn. -/
theorem c5_rate_limit_witness :
    (chat [("s1", ⟨[⟨"user", "q", 0⟩], 0, 0⟩)] ⟨"tell me more", [], "s1", "en"⟩
        ⟨Except.ok [], Except.ok [], Except.error "429 Too Many Requests"⟩ 7).response
      = RATE_LIMIT_MSG ∧
    (chat [("s1", ⟨[⟨"user", "q", 0⟩], 0, 0⟩)] ⟨"tell me more", [], "s1", "en"⟩
        ⟨Except.ok [], Except.ok [], Except.error "429 Too Many Requests"⟩ 7).citations = [] ∧
    (chat [("s1", ⟨[⟨"user", "q", 0⟩], 0, 0⟩)] ⟨"tell me more", [], "s1", "en"⟩
        ⟨Except.ok [], Except.ok [], Except.error "429 Too Many Requests"⟩ 7).memory
      = [("s1", ⟨[⟨"user", "q", 0⟩], 0, 0⟩)] :=
  c5_rate_limit [("s1", ⟨[⟨"user", "q", 0⟩], 0, 0⟩)] ⟨"tell me more", [], "s1", "en"⟩ 7 []
    (Except.ok []) "429 Too Many Requests" (by decide) (by decide)

/-- Claim C10 (confirmed): the streaming chat endpoint leaves the session
store untouched for every request and every provider outcome, while the
non-streaming endpoint persists the user turn and the generated
assistant turn whenever a session id is supplied and generation
succeeds. -/
theorem c10_stream_frame :
    (∀ (mem : Memory) (req : ChatRequest) (o : ChatOracles) (chunks : List String),
      (chat_stream mem req o chunks).memory = mem)
    ∧ (∀ (mem : Memory) (req : ChatRequest) (now : Nat) (v : List Int)
        (sr : Except String (List Doc)) (t : String),
        req.session_id ≠ "" →
        check_easter_egg req.query = none →
        (chat mem req ⟨Except.ok v, sr, Except.ok t⟩ now).memory
          = save_to_session (save_to_session mem req.session_id "user" req.query now)
              req.session_id "assistant" t now) := by
  constructor
  · intro mem req o chunks
    rcases o with ⟨er, sr, gr⟩
    cases er <;> simp [chat_stream, get_query_embedding]
  · intro mem req now v sr t hsid hegg
    simp [chat, hegg, get_query_embedding, hsid]

/-- Witness for `c10_stream_frame`: a streaming call with a session id
leaves the store empty, while the same non-streaming call appends both
turns. -/
theorem c10_stream_frame_witness :
    (chat_stream [] ⟨"hi there", [], "s1", "en"⟩
        ⟨Except.ok [], Except.ok [], Except.ok "ans"⟩ ["a", "b"]).memory = [] ∧
    (chat [] ⟨"hi there", [], "s1", "en"⟩
        ⟨Except.ok [], Except.ok [], Except.ok "ans"⟩ 0).memory
      = save_to_session (save_to_session [] "s1" "user" "hi there" 0) "s1" "assistant" "ans" 0 :=
  ⟨c10_stream_frame.1 [] ⟨"hi there", [], "s1", "en"⟩
      ⟨Except.ok [], Except.ok [], Except.ok "ans"⟩ ["a", "b"],
    c10_stream_frame.2 [] ⟨"hi there", [], "s1", "en"⟩ 0 [] (Except.ok []) "ans"
      (by decide) (by decide)⟩

/-! ## Knowledge ingestion (`maintain.py`: `upload_knowledge`, `sync_github`) -/

/-- A row of the `documents` table. -/
structure KDoc where
  content : String
  metadata : MetaDict
  embedding : List Int
  deriving DecidableEq

/-- `get_embedding` (maintain.py lines 30-42): catches provider errors and
returns `None`; the oracle is the outcome of the provider call. -/
def get_embedding (embedRes : Option (List Int)) : Option (List Int) := embedRes

/-- The purge step `delete().eq('metadata->>source_id', source_id)`
(maintain.py line 50). -/
def purgeDocs (source_id : String) : List KDoc → List KDoc
  | [] => []
  | d :: rest =>
    if dictFind d.metadata "source_id" == some source_id then purgeDocs source_id rest
    else d :: purgeDocs source_id rest

/-- `upload_knowledge(source_id, content, metadata)` (maintain.py lines
44-77): best-effort purge, then embed (abort on failure), then insert.
`purgeFails`/`insertFails` model the two supabase calls raising; a failed
purge leaves the table unchanged. -/
def upload_knowledge (store : List KDoc) (purgeFails : Bool)
    (embedRes : Option (List Int)) (insertFails : Bool)
    (source_id content : String) (metadata : MetaDict) : Bool × List KDoc :=
  let store1 := if purgeFails then store else purgeDocs source_id store
  match get_embedding embedRes with
  | none => (false, store1)
  | some vector =>
    let md := dictSetKey metadata "source_id" source_id
    if insertFails then (false, store1)
    else (true, store1 ++ [⟨content, md, vector⟩])

/-- One repository entry of the GitHub listing (the fields `sync_github`
reads, pre-extracted; `stars`/`topics` are rendered to strings where the
code interpolates them). -/
structure Repo where
  name : String
  fork : Bool
  description : String
  language : String
  topics : List String
  stars : Nat
  html_url : String
  deriving DecidableEq

/-- `f"github_{name.lower().replace('-', '_')}"` (maintain.py line 104). -/
def github_source_id (name : String) : String :=
  "github_" ++ replaceChar '-' '_' (pyLower name)

/-- Python `", ".join(...)`. -/
def joinComma : List String → String
  | [] => ""
  | [x] => x
  | x :: y :: rest => x ++ ", " ++ joinComma (y :: rest)

/-- The rich content block of maintain.py lines 107-114. -/
def githubContent (repo : Repo) : String :=
  "Project: " ++ repo.name
  ++ "\nDescription: " ++ repo.description
  ++ "\nLanguage: " ++ repo.language
  ++ "\nTopics: " ++ joinComma repo.topics
  ++ "\nStars: " ++ toString repo.stars
  ++ "\nURL: " ++ repo.html_url
  ++ "\n\nThis is a GitHub project by Ayomide Alli. It demonstrates skills in "
  ++ repo.language ++ "."

/-- The metadata dict of maintain.py lines 116-124. -/
def githubMeta (repo : Repo) : MetaDict :=
  [("type", "project"), ("source", "github"), ("name", repo.name),
   ("url", repo.html_url), ("language", repo.language),
   ("stars", toString repo.stars), ("topics", joinComma repo.topics)]

/-- The `for repo in repos` loop of `sync_github` (maintain.py lines
98-127): skip forks, upload everything else, count successes. -/
def syncGithubLoop (purgeF : String → Bool) (embedF : String → Option (List Int))
    (insertF : String → Bool) : List Repo → Nat × List KDoc → Nat × List KDoc
  | [], acc => acc
  | repo :: rest, acc =>
    if repo.fork then syncGithubLoop purgeF embedF insertF rest acc
    else
      let source_id := github_source_id repo.name
      let r := upload_knowledge acc.2 (purgeF source_id) (embedF (githubContent repo))
        (insertF source_id) source_id (githubContent repo) (githubMeta repo)
      syncGithubLoop purgeF embedF insertF rest (if r.1 then acc.1 + 1 else acc.1, r.2)

/-- `sync_github()` (maintain.py lines 81-130): a listing failure yields
count 0 and no writes; otherwise the loop runs over the listing. -/
def sync_github (store : List KDoc) (listing : Except String (List Repo))
    (purgeF : String → Bool) (embedF : String → Option (List Int))
    (insertF : String → Bool) : Nat × List KDoc :=
  match listing with
  | .error _ => (0, store)
  | .ok repos => syncGithubLoop purgeF embedF insertF repos (0, store)

/-! ## Dictionary lemmas for the upsert -/

theorem dictFind_append_single (d : MetaDict) (k v : String)
    (h : d.find? (fun p => p.1 == k) = none) :
    dictFind (d ++ [(k, v)]) k = some v := by
  induction d with
  | nil =>
    show dictFind [(k, v)] k = some v
    rw [dictFind, List.find?, show ((k, v).1 == k) = true from by simp]
  | cons p rest ih =>
    have hsplit : (p.1 == k) = false ∧ rest.find? (fun p => p.1 == k) = none := by
      rw [List.find?] at h
      cases hc : (p.1 == k) with
      | true => rw [hc] at h; cases h
      | false => rw [hc] at h; exact ⟨rfl, h⟩
    rw [show ((p :: rest) ++ [(k, v)]) = p :: (rest ++ [(k, v)]) from rfl,
      dictFind, List.find?, hsplit.1]
    rw [dictFind] at ih
    exact ih hsplit.2

theorem dictFind_map_set (d : MetaDict) (k v : String)
    (h : (d.find? (fun p => p.1 == k)).isSome = true) :
    dictFind (d.map (fun p => if p.1 == k then (p.1, v) else p)) k = some v := by
  induction d with
  | nil => cases h
  | cons p rest ih =>
    rw [List.map_cons]
    by_cases hp : p.1 = k
    · have hb : (p.1 == k) = true := by simp [hp]
      rw [show (if (p.1 == k) = true then (p.1, v) else p) = (p.1, v) from by rw [hb]; simp]
      rw [dictFind, List.find?, show ((p.1, v).1 == k) = true from hb]
    · have hb : (p.1 == k) = false := by simp [hp]
      rw [show (if (p.1 == k) = true then (p.1, v) else p) = p from by rw [hb]; simp]
      rw [dictFind, List.find?, hb]
      have h2 : (rest.find? (fun p => p.1 == k)).isSome = true := by
        rw [List.find?, hb] at h
        exact h
      rw [dictFind] at ih
      exact ih h2

theorem dictFind_dictSetKey (d : MetaDict) (k v : String) :
    dictFind (dictSetKey d k v) k = some v := by
  rw [dictSetKey]
  by_cases h : (d.find? (fun p => p.1 == k)).isSome = true
  · rw [if_pos h]
    exact dictFind_map_set d k v h
  · rw [if_neg h]
    refine dictFind_append_single d k v ?_
    cases hf : d.find? (fun p => p.1 == k) with
    | none => rfl
    | some p =>
      rw [hf] at h
      simp at h

theorem purgeDocs_eq_self (sid : String) (store : List KDoc)
    (h : ∀ d ∈ store, dictFind d.metadata "source_id" ≠ some sid) :
    purgeDocs sid store = store := by
  induction store with
  | nil => rfl
  | cons d rest ih =>
    rw [purgeDocs]
    have hb : (dictFind d.metadata "source_id" == some sid) = false := by
      have := h d (List.mem_cons_self d rest)
      simpa using this
    rw [hb]
    simp only [Bool.false_eq_true, if_false]
    rw [ih (fun d' hd' => h d' (List.mem_cons_of_mem d hd'))]

/-- Claim C6 (confirmed): in `upload_knowledge`, (i) a purge failure does
not abort — the item is still embedded and inserted; (ii) an embedding
failure fails the whole item with nothing inserted; (iii) a successful
upsert inserts exactly one new document whose `metadata.source_id` is the
given key; and (iv) in the GitHub sync loop a failed item does not
increment the synced count. -/
theorem c6_upsert :
    (∀ (store : List KDoc) (v : List Int) (sid content : String) (md : MetaDict),
      upload_knowledge store true (some v) false sid content md
        = (true, store ++ [⟨content, dictSetKey md "source_id" sid, v⟩]))
    ∧ (∀ (store : List KDoc) (pf insf : Bool) (sid content : String) (md : MetaDict),
      upload_knowledge store pf none insf sid content md
        = (false, if pf then store else purgeDocs sid store))
    ∧ (∀ (store : List KDoc) (pf : Bool) (v : List Int) (sid content : String) (md : MetaDict),
      upload_knowledge store pf (some v) false sid content md
        = (true, (if pf then store else purgeDocs sid store)
            ++ [⟨content, dictSetKey md "source_id" sid, v⟩]) ∧
      dictFind (dictSetKey md "source_id" sid) "source_id" = some sid)
    ∧ (∀ (purgeF : String → Bool) (embedF : String → Option (List Int))
        (insertF : String → Bool) (repo : Repo) (rest : List Repo) (n : Nat)
        (store : List KDoc),
      repo.fork = false →
      (upload_knowledge store (purgeF (github_source_id repo.name))
          (embedF (githubContent repo)) (insertF (github_source_id repo.name))
          (github_source_id repo.name) (githubContent repo) (githubMeta repo)).1 = false →
      syncGithubLoop purgeF embedF insertF (repo :: rest) (n, store)
        = syncGithubLoop purgeF embedF insertF rest
            (n, (upload_knowledge store (purgeF (github_source_id repo.name))
              (embedF (githubContent repo)) (insertF (github_source_id repo.name))
              (github_source_id repo.name) (githubContent repo) (githubMeta repo)).2)) := by
  refine ⟨?_, ?_, ?_, ?_⟩
  · intro store v sid content md
    rfl
  · intro store pf insf sid content md
    cases pf <;> cases insf <;> rfl
  · intro store pf v sid content md
    exact ⟨by cases pf <;> rfl, dictFind_dictSetKey md "source_id" sid⟩
  · intro purgeF embedF insertF repo rest n store hfork hfail
    rw [syncGithubLoop, if_neg (by rw [hfork]; exact Bool.false_ne_true)]
    dsimp only
    rw [hfail]
    simp

/-- Witness for `c6_upsert`: a concrete item whose embedding call fails
inside a sync run, leaving the synced count untouched. -/
theorem c6_upsert_witness :
    (⟨"X", false, "d", "Python", [], 0, "u"⟩ : Repo).fork = false ∧
    (upload_knowledge [] false none false (github_source_id "X")
        (githubContent ⟨"X", false, "d", "Python", [], 0, "u"⟩)
        (githubMeta ⟨"X", false, "d", "Python", [], 0, "u"⟩)).1 = false ∧
    syncGithubLoop (fun _ => false) (fun _ => none) (fun _ => false)
        [⟨"X", false, "d", "Python", [], 0, "u"⟩] (0, [])
      = syncGithubLoop (fun _ => false) (fun _ => none) (fun _ => false) []
          (0, (upload_knowledge [] false none false (github_source_id "X")
            (githubContent ⟨"X", false, "d", "Python", [], 0, "u"⟩)
            (githubMeta ⟨"X", false, "d", "Python", [], 0, "u"⟩)).2) :=
  ⟨by decide, by decide,
    c6_upsert.2.2.2 (fun _ => false) (fun _ => none) (fun _ => false)
      ⟨"X", false, "d", "Python", [], 0, "u"⟩ [] 0 [] (by decide) (by decide)⟩

/-! ## Claim C7: the GitHub sync run -/

theorem syncGithubLoop_spec (purgeF : String → Bool) (ev : String → List Int) :
    ∀ (repos : List Repo) (n : Nat) (store : List KDoc),
    (∀ r ∈ repos, r.fork = false →
      ∀ d ∈ store, dictFind d.metadata "source_id" ≠ some (github_source_id r.name)) →
    ((repos.filter (fun r => !r.fork)).map (fun r => github_source_id r.name)).Nodup →
    syncGithubLoop purgeF (fun c => some (ev c)) (fun _ => false) repos (n, store)
      = (n + (repos.filter (fun r => !r.fork)).length,
         store ++ (repos.filter (fun r => !r.fork)).map (fun r =>
           (⟨githubContent r, dictSetKey (githubMeta r) "source_id" (github_source_id r.name),
             ev (githubContent r)⟩ : KDoc))) := by
  intro repos
  induction repos with
  | nil =>
    intro n store _ _
    simp [syncGithubLoop]
  | cons repo rest ih =>
    intro n store hdocs hnd
    by_cases hf : repo.fork
    · have hfilter : (repo :: rest).filter (fun r => !r.fork)
          = rest.filter (fun r => !r.fork) := by
        rw [List.filter_cons_of_neg (by rw [hf]; simp)]
      rw [syncGithubLoop, if_pos hf, hfilter]
      exact ih n store (fun r hr => hdocs r (List.mem_cons_of_mem repo hr)) (hfilter ▸ hnd)
    · have hf' : repo.fork = false := by
        cases hfv : repo.fork
        · rfl
        · exact absurd hfv hf
      have hfilter : (repo :: rest).filter (fun r => !r.fork)
          = repo :: rest.filter (fun r => !r.fork) := by
        rw [List.filter_cons_of_pos (by rw [hf']; simp)]
      have hstore1 : (if purgeF (github_source_id repo.name) then store
          else purgeDocs (github_source_id repo.name) store) = store := by
        by_cases hp : purgeF (github_source_id repo.name)
        · rw [if_pos hp]
        · rw [if_neg hp]
          exact purgeDocs_eq_self _ store
            (hdocs repo (List.mem_cons_self repo rest) hf')
      have hup : upload_knowledge store (purgeF (github_source_id repo.name))
          (some (ev (githubContent repo))) false (github_source_id repo.name)
          (githubContent repo) (githubMeta repo)
          = (true, store ++ [⟨githubContent repo,
              dictSetKey (githubMeta repo) "source_id" (github_source_id repo.name),
              ev (githubContent repo)⟩]) := by
        rw [upload_knowledge]
        rw [show get_embedding (some (ev (githubContent repo)))
            = some (ev (githubContent repo)) from rfl]
        rw [hstore1]
        rfl
      rw [syncGithubLoop, if_neg (by rw [hf']; exact Bool.false_ne_true)]
      dsimp only
      rw [hup]
      dsimp only
      rw [if_pos rfl]
      have hnd' := hfilter ▸ hnd
      rw [List.map_cons] at hnd'
      have hnd2 := List.nodup_cons.mp hnd'
      have hdocs' : ∀ r ∈ rest, r.fork = false →
          ∀ d ∈ store ++ [(⟨githubContent repo,
            dictSetKey (githubMeta repo) "source_id" (github_source_id repo.name),
            ev (githubContent repo)⟩ : KDoc)],
          dictFind d.metadata "source_id" ≠ some (github_source_id r.name) := by
        intro r hr hrf d hd
        rcases List.mem_append.mp hd with hd | hd
        · exact hdocs r (List.mem_cons_of_mem repo hr) hrf d hd
        · have hde : d = ⟨githubContent repo,
              dictSetKey (githubMeta repo) "source_id" (github_source_id repo.name),
              ev (githubContent repo)⟩ := by simpa using hd
          rw [hde]
          show dictFind (dictSetKey (githubMeta repo) "source_id"
            (github_source_id repo.name)) "source_id" ≠ some (github_source_id r.name)
          rw [dictFind_dictSetKey]
          intro hcontra
          have hkeyeq : github_source_id repo.name = github_source_id r.name :=
            Option.some_injective _ hcontra
          exact hnd2.1 (hkeyeq ▸ List.mem_map_of_mem (fun r => github_source_id r.name)
            (List.mem_filter.mpr ⟨hr, by rw [hrf]; simp⟩))
      rw [ih (n + 1) _ hdocs' hnd2.2, hfilter]
      rw [List.length_cons, List.map_cons, List.append_assoc, List.singleton_append]
      have harith : n + 1 + (List.filter (fun r => !r.fork) rest).length
          = n + ((List.filter (fun r => !r.fork) rest).length + 1) := by omega
      rw [harith]

def repoFooBar : Repo :=
  ⟨"Foo-Bar", false, "a project", "Rust", [], 3, "https://github.com/AAEO04/Foo-Bar"⟩

def repoBaz : Repo :=
  ⟨"baz", false, "another project", "Python", [], 1, "https://github.com/AAEO04/baz"⟩

def repoFork : Repo :=
  ⟨"Some-Fork", true, "a fork", "C", [], 0, "https://github.com/AAEO04/Some-Fork"⟩

/-- Claim C7 (confirmed): in a GitHub sync run every fork is skipped and
every non-fork repository named `N` is ingested under the key
`"github_" ++ N` lowercased with hyphens replaced by underscores; the
listing `[Foo-Bar, Some-Fork, baz]` yields exactly the two document keys
`github_foo_bar` and `github_baz` and a synced count of 2. -/
theorem c7_github_sync :
    (∀ (repos : List Repo) (purgeF : String → Bool) (ev : String → List Int),
      ((repos.filter (fun r => !r.fork)).map (fun r => github_source_id r.name)).Nodup →
      sync_github [] (Except.ok repos) purgeF (fun c => some (ev c)) (fun _ => false)
        = ((repos.filter (fun r => !r.fork)).length,
           (repos.filter (fun r => !r.fork)).map (fun r =>
             (⟨githubContent r, dictSetKey (githubMeta r) "source_id" (github_source_id r.name),
               ev (githubContent r)⟩ : KDoc))))
    ∧ ((sync_github [] (Except.ok [repoFooBar, repoFork, repoBaz]) (fun _ => false)
          (fun _ => some []) (fun _ => false)).2.map
            (fun d => dictFind d.metadata "source_id")
        = [some "github_foo_bar", some "github_baz"] ∧
      (sync_github [] (Except.ok [repoFooBar, repoFork, repoBaz]) (fun _ => false)
          (fun _ => some []) (fun _ => false)).1 = 2) := by
  constructor
  · intro repos purgeF ev hnd
    rw [sync_github]
    rw [syncGithubLoop_spec purgeF ev repos 0 [] (fun r _ _ d hd => absurd hd (by simp)) hnd]
    simp
  · constructor <;> decide

/-- Witness for `c7_github_sync` at the concrete three-repository listing. -/
theorem c7_github_sync_witness :
    sync_github [] (Except.ok [repoFooBar, repoFork, repoBaz]) (fun _ => false)
        (fun c => some ((fun _ => ([] : List Int)) c)) (fun _ => false)
      = ((([repoFooBar, repoFork, repoBaz].filter (fun r => !r.fork)).length,
          ([repoFooBar, repoFork, repoBaz].filter (fun r => !r.fork)).map (fun r =>
            (⟨githubContent r, dictSetKey (githubMeta r) "source_id" (github_source_id r.name),
              (fun _ => ([] : List Int)) (githubContent r)⟩ : KDoc)))) :=
  c7_github_sync.1 [repoFooBar, repoFork, repoBaz] (fun _ => false) (fun _ => [])
    (by decide)

/-! ## Claim C8: citations emitted by the prompt builder -/

/-- Modelled from the spec: the "lowercase, space-to-underscore slug" of a
document name, used to compare the emitted `ref` field against the
spec's words. -/
def specSlug (name : String) : String := replaceChar ' ' '_' (pyLower name)

theorem buildLoop_citations : ∀ (docs : List Doc) (i : Nat),
    (buildLoop i docs).2
      = (docs.filter (fun d => dictGet d.metadata "type" "unknown" == "project")).map
          (fun d => (⟨"project", dictGet d.metadata "name" "Unknown Project",
            "project_" ++ specSlug (dictGet d.metadata "name" ""),
            dictGet d.metadata "url" ""⟩ : Citation)) := by
  intro docs
  induction docs with
  | nil => intro i; rfl
  | cons doc rest ih =>
    intro i
    rw [buildLoop]
    dsimp only
    cases hp : (dictGet doc.metadata "type" "unknown" == "project") with
    | true =>
      rw [List.filter_cons]
      simp only [hp, if_true]
      rw [List.map_cons, List.singleton_append, ih (i + 1)]
      rfl
    | false =>
      rw [List.filter_cons]
      simp only [hp, Bool.false_eq_true, if_false]
      rw [List.nil_append, ih (i + 1)]

/-- Claim C8, counterexample: for a `project`-typed document named
`"Foo Bar"` the emitted citation ref is `"project_foo_bar"`, which is not
the lowercase space-to-underscore slug `"foo_bar"` of the name — the code
prefixes the slug with `"project_"`. -/
theorem c8_counterexample :
    (build_system_prompt [⟨"some content",
        [("type", "project"), ("name", "Foo Bar"), ("url", "http://u")]⟩] "en").2
      = [⟨"project", "Foo Bar", "project_foo_bar", "http://u"⟩] ∧
    specSlug "Foo Bar" = "foo_bar" ∧
    "project_foo_bar" ≠ specSlug "Foo Bar" := by
  refine ⟨?_, ?_, ?_⟩ <;> decide

/-- Claim C8 (amended): for every document list and language the prompt
builder emits, in input order, one citation per `project`-typed document,
carrying the document's name and url and a `ref` equal to `"project_"`
followed by the lowercase, space-to-underscore slug of
`metadata.name`. -/
theorem c8_amended_citations (docs : List Doc) (language : String) :
    (build_system_prompt docs language).2
      = (docs.filter (fun d => dictGet d.metadata "type" "unknown" == "project")).map
          (fun d => (⟨"project", dictGet d.metadata "name" "Unknown Project",
            "project_" ++ specSlug (dictGet d.metadata "name" ""),
            dictGet d.metadata "url" ""⟩ : Citation)) := by
  rw [build_system_prompt]
  exact buildLoop_citations docs 0

/-! ## Claim C9: occurrence counting around newline boundaries

A needle that contains no newline cannot straddle a `'\n'` position, so
`subCount` distributes over a split at a newline. This pins down how
often a language directive occurs in the assembled prompt. -/

theorem charsStartWith_append_newline : ∀ (n zs w : List Char), ('\n' : Char) ∉ n →
    charsStartWith n (zs ++ '\n' :: w) = charsStartWith n zs := by
  intro n
  induction n with
  | nil => intro zs w _; rfl
  | cons a n' ih =>
    intro zs w hnl
    have ha : (a == '\n') = false := by
      have : a ≠ '\n' := fun he => hnl (he ▸ List.mem_cons_self a n')
      simpa using this
    cases zs with
    | nil =>
      show ((a == '\n') && charsStartWith n' w) = charsStartWith (a :: n') []
      rw [ha]
      rfl
    | cons b zs' =>
      show ((a == b) && charsStartWith n' (zs' ++ '\n' :: w))
          = ((a == b) && charsStartWith n' zs')
      rw [ih zs' w (fun hm => hnl (List.mem_cons_of_mem a hm))]

theorem subCount_nil (n : List Char) (hne : n ≠ []) : subCount n [] = 0 := by
  cases n with
  | nil => exact absurd rfl hne
  | cons a n' => rfl

theorem subCount_cons_newline (n : List Char) (hne : n ≠ [])
    (hnl : ('\n' : Char) ∉ n) (ys : List Char) :
    subCount n ('\n' :: ys) = subCount n ys := by
  cases n with
  | nil => exact absurd rfl hne
  | cons a n' =>
    have ha : (a == '\n') = false := by
      have : a ≠ '\n' := fun he => hnl (he ▸ List.mem_cons_self a n')
      simpa using this
    rw [subCount]
    rw [show charsStartWith (a :: n') ('\n' :: ys) = false from by
      show ((a == '\n') && charsStartWith n' ys) = false
      rw [ha]
      rfl]
    simp

theorem subCount_split (n : List Char) (hne : n ≠ []) (hnl : ('\n' : Char) ∉ n) :
    ∀ (xs ys : List Char), subCount n (xs ++ '\n' :: ys) = subCount n xs + subCount n ys := by
  intro xs
  induction xs with
  | nil =>
    intro ys
    rw [List.nil_append, subCount_cons_newline n hne hnl ys, subCount_nil n hne]
    omega
  | cons x xs' ih =>
    intro ys
    rw [List.cons_append, subCount]
    rw [show charsStartWith n (x :: (xs' ++ '\n' :: ys)) = charsStartWith n (x :: xs') from
      charsStartWith_append_newline n (x :: xs') ys hnl]
    rw [ih ys]
    conv_rhs => rw [subCount]
    omega

/-! ## Claim C9: the language directive in the assembled prompt -/

theorem build_prompt_eq (docs : List Doc) (language : String) :
    (build_system_prompt docs language).1
      = PROMPT_HEAD ++ "\n" ++ (buildLoop 0 docs).1 ++ "\n" ++ PROMPT_MID ++ "\n"
        ++ language_instruction_of language ++ "\n" := rfl

theorem li_of_default (language : String)
    (h : language = "en" ∨ dictFind LANGUAGE_PROMPTS language = none) :
    language_instruction_of language = "" := by
  rcases h with h | h
  · rw [language_instruction_of, if_neg (by simp [h])]
  · rw [language_instruction_of]
    by_cases he : language ≠ "en"
    · rw [if_pos he, h]
    · rw [if_neg he]

theorem li_of_recognized (language tpl : String) (hne1 : language ≠ "en")
    (hfind : dictFind LANGUAGE_PROMPTS language = some tpl) :
    language_instruction_of language
      = "\n" ++ "\n" ++ LANG_HDR ++ "\n" ++ tpl ++ "\n" ++ langTail language := by
  rw [language_instruction_of, if_pos hne1, hfind]

theorem subCount_assembled (P : List Char) (ctx tpl rt : String)
    (hne : P ≠ []) (hnl : ('\n' : Char) ∉ P) :
    subCount P (PROMPT_HEAD ++ "\n" ++ ctx ++ "\n" ++ PROMPT_MID ++ "\n"
        ++ ("\n" ++ "\n" ++ LANG_HDR ++ "\n" ++ tpl ++ "\n" ++ rt) ++ "\n").data
      = subCount P PROMPT_HEAD.data + subCount P ctx.data + subCount P PROMPT_MID.data
        + subCount P LANG_HDR.data + subCount P tpl.data + subCount P rt.data := by
  simp only [String.data_append, show ("\n" : String).data = ['\n'] from rfl,
    List.append_assoc, List.singleton_append, List.cons_append, List.nil_append]
  simp only [subCount_split P hne hnl, subCount_cons_newline P hne hnl,
    subCount_nil P hne]
  omega

theorem subCount_assembled_plain (P : List Char) (ctx : String)
    (hne : P ≠ []) (hnl : ('\n' : Char) ∉ P) :
    subCount P (PROMPT_HEAD ++ "\n" ++ ctx ++ "\n" ++ PROMPT_MID ++ "\n"
        ++ "" ++ "\n").data
      = subCount P PROMPT_HEAD.data + subCount P ctx.data
        + subCount P PROMPT_MID.data := by
  simp only [String.data_append, show ("\n" : String).data = ['\n'] from rfl,
    show ("" : String).data = ([] : List Char) from rfl,
    List.append_assoc, List.append_nil, List.nil_append,
    List.singleton_append, List.cons_append]
  simp only [subCount_split P hne hnl, subCount_cons_newline P hne hnl,
    subCount_nil P hne]
  omega

/-- The per-language kernel of C9: with the fixed prompt parts free of the
directive text and the directive free of newlines, the directive occurs
in the assembled prompt exactly once more than in the document context. -/
theorem c9_case (docs : List Doc) (language tpl : String) (c : Nat)
    (hne1 : language ≠ "en") (hfind : dictFind LANGUAGE_PROMPTS language = some tpl)
    (hP0 : tpl.data ≠ []) (hPn : ('\n' : Char) ∉ tpl.data)
    (hHead : subCount tpl.data PROMPT_HEAD.data = 0)
    (hMid : subCount tpl.data PROMPT_MID.data = 0)
    (hHdr : subCount tpl.data LANG_HDR.data = 0)
    (hSelf : subCount tpl.data tpl.data = 1)
    (hTail : subCount tpl.data (langTail language).data = 0)
    (hctx : subCount tpl.data (buildLoop 0 docs).1.data = c) :
    subCount tpl.data (build_system_prompt docs language).1.data = c + 1 := by
  rw [build_prompt_eq, li_of_recognized language tpl hne1 hfind]
  rw [subCount_assembled tpl.data (buildLoop 0 docs).1 tpl (langTail language) hP0 hPn]
  omega

/-- Claim C9, counterexample: a retrieved document whose content is
itself the Spanish directive text makes the prompt for `language = "es"`
contain the directive text twice, not "exactly once" as the claim states
for every call. -/
theorem c9_counterexample :
    ("es" : String) ≠ "en" ∧
    dictFind LANGUAGE_PROMPTS "es" = some "Responde en español de manera profesional." ∧
    subCount ("Responde en español de manera profesional." : String).data
      (build_system_prompt
        [⟨"Responde en español de manera profesional.", [("type", "note")]⟩] "es").1.data
      = 2 := by
  refine ⟨by decide, by decide, ?_⟩
  have h := c9_case [⟨"Responde en español de manera profesional.", [("type", "note")]⟩]
    "es" "Responde en español de manera profesional." 1
    (by decide) (by decide) (by decide) (by decide) (by decide) (by decide) (by decide)
    (by decide) (by decide) (by decide)
  omega

/-- Claim C9 (amended): for `"en"` or a code without a template the
builder appends no language-directive block — the prompt is exactly the
directive-free assembly, and (provided the document context does not
itself contain the directive header) the header occurs nowhere in it;
for a code with a template, provided the retrieved-document context does
not itself contain that code's directive text, the produced prompt
contains the directive text exactly once. -/
theorem c9_amended_language :
    (∀ (docs : List Doc) (language : String),
      language = "en" ∨ dictFind LANGUAGE_PROMPTS language = none →
      (build_system_prompt docs language).1
        = PROMPT_HEAD ++ "\n" ++ (buildLoop 0 docs).1 ++ "\n" ++ PROMPT_MID ++ "\n"
          ++ "" ++ "\n" ∧
      (subCount LANG_HDR.data (buildLoop 0 docs).1.data = 0 →
        subCount LANG_HDR.data (build_system_prompt docs language).1.data = 0))
    ∧ (∀ (docs : List Doc) (p : String × String),
      p ∈ LANGUAGE_PROMPTS →
      subCount p.2.data (buildLoop 0 docs).1.data = 0 →
      subCount p.2.data (build_system_prompt docs p.1).1.data = 1) := by
  constructor
  · intro docs language h
    have hplain : (build_system_prompt docs language).1
        = PROMPT_HEAD ++ "\n" ++ (buildLoop 0 docs).1 ++ "\n" ++ PROMPT_MID ++ "\n"
          ++ "" ++ "\n" := by
      rw [build_prompt_eq, li_of_default language h]
    refine ⟨hplain, ?_⟩
    intro hctx
    rw [hplain]
    rw [subCount_assembled_plain LANG_HDR.data (buildLoop 0 docs).1 (by decide) (by decide)]
    have hHead : subCount LANG_HDR.data PROMPT_HEAD.data = 0 := by decide
    have hMid : subCount LANG_HDR.data PROMPT_MID.data = 0 := by decide
    omega
  · intro docs p hmem
    simp only [LANGUAGE_PROMPTS] at hmem
    fin_cases hmem <;>
      intro hctx <;>
      exact c9_case docs _ _ 0 (by decide) (by decide) (by decide) (by decide) (by decide)
        (by decide) (by decide) (by decide) (by decide) hctx

/-- Witness for `c9_amended_language` at concrete inputs: the default
code on an empty context, and the Spanish directive on an empty
context. -/
theorem c9_amended_language_witness :
    ((build_system_prompt [] "en").1
        = PROMPT_HEAD ++ "\n" ++ (buildLoop 0 ([] : List Doc)).1 ++ "\n" ++ PROMPT_MID
          ++ "\n" ++ "" ++ "\n" ∧
      (subCount LANG_HDR.data (buildLoop 0 ([] : List Doc)).1.data = 0 →
        subCount LANG_HDR.data (build_system_prompt ([] : List Doc) "en").1.data = 0)) ∧
    subCount ("Responde en español de manera profesional." : String).data
      (build_system_prompt ([] : List Doc) "es").1.data = 1 :=
  ⟨c9_amended_language.1 [] "en" (Or.inl rfl),
    c9_amended_language.2 [] ("es", "Responde en español de manera profesional.")
      (by decide) (by decide)⟩

end Portfolio
